import Mathlib

/-!
Verification development for the A*-style search engine of the rudyhb/utils
repository.

Two historical revisions of the engine coexist in the sources and are both
embedded here:

* namespace AStar: the current module (src/a_star/mod.rs together with
  src/a_star/implementations.rs).  The struct and trait declarations this
  revision uses (NodeList with the four fields, the CustomNode trait, the
  ComputationResult and Error types) are not present under src - the
  models.rs in the tree is an intermediate revision - so the container shapes
  are modelled from the spec: cost_indexing is the ordered cost index
  (cost to set of identity keys, spec section 3), candidate_nodes,
  node_history and position_hash_to_min_accrued_cost are plain maps.
  Maps are embedded as association lists whose operations mirror the std
  collections: insert replaces the binding of a key, lookup finds the
  binding, remove erases it.  The cost index is kept sorted by cost with
  sorted buckets of identity keys, matching BTreeMap and an ordered id set
  (first_key_value is the least cost, iter().next() the least id).
  The generic cost type (trait Numeric) is instantiated at Int, which covers
  the i32/i64 instantiations of all tests without overflow concerns.
  Logging and the log-pacing timer are observational only and are omitted;
  of the Options fields only iteration_limit affects results.
  Rust panics (unwrap/expect on a missing key) are modelled by the explicit
  error value Error.Panicked, kept distinct from the UnexpectedError value
  that the source returns through Result.

* namespace OldAStar: the earlier free-standing engine (src/a_star.rs),
  which carries the fork-join parallel expansion mode.  Its while loop has
  no iteration bound, so it is embedded with an explicit fuel parameter;
  running out of fuel yields none (computation still in progress), every
  genuine outcome yields some.  The number of worker threads
  (num_cpus::get()) is a parameter.  Worker completion order is modelled as
  batch order; every operation the counterexamples below exercise is
  insensitive to that order.
-/

set_option maxRecDepth 4000

namespace AStar

/-- Association-list lookup, first binding wins (models HashMap::get). -/
def mapLookup {κ : Type} [DecidableEq κ] {α : Type} (k : κ) :
    List (κ × α) → Option α
  | [] => none
  | (k', v) :: rest => if k' = k then some v else mapLookup k rest

/-- Remove every binding of a key (models HashMap::remove). -/
def mapErase {κ : Type} [DecidableEq κ] {α : Type} (k : κ) :
    List (κ × α) → List (κ × α)
  | [] => []
  | (k', v) :: rest =>
    if k' = k then mapErase k rest else (k', v) :: mapErase k rest

/-- Insert or replace a binding (models HashMap::insert). -/
def mapInsert {κ : Type} [DecidableEq κ] {α : Type} (k : κ) (v : α)
    (m : List (κ × α)) : List (κ × α) :=
  (k, v) :: mapErase k m

/-- Insert an identity key into a sorted bucket of keys (models the ordered
id set of one cost bucket). -/
def bucketInsert (i : Nat) : List Nat → List Nat
  | [] => [i]
  | j :: rest =>
    if i < j then i :: j :: rest
    else if i = j then j :: rest
    else j :: bucketInsert i rest

/-- Insert an identity key under a cost into the sorted cost index (models
cost_indexing.entry(cost).or_default().insert(id) on a BTreeMap). -/
def costInsert (c : Int) (i : Nat) :
    List (Int × List Nat) → List (Int × List Nat)
  | [] => [(c, [i])]
  | (c', ids) :: rest =>
    if c < c' then (c, [i]) :: (c', ids) :: rest
    else if c = c' then (c', bucketInsert i ids) :: rest
    else (c', ids) :: costInsert c i rest

/-- Remove an identity key from the bucket of a cost, dropping the bucket if
it becomes empty; none models the panicking unwrap when the bucket of the
cost is absent (remove_candidate in implementations.rs). -/
def costRemove (c : Int) (i : Nat) :
    List (Int × List Nat) → Option (List (Int × List Nat))
  | [] => none
  | (c', ids) :: rest =>
    if c' = c then
      let ids' := ids.filter (fun j => j ≠ i)
      some (if ids' = [] then rest else (c', ids') :: rest)
    else (costRemove c i rest).map (fun r => (c', ids) :: r)

/-- The CustomNode trait data: the NODE_ID_AND_POSITION_HASH_SAME flag and
the two key functions (identity key, position-equivalence key), u64 keys
modelled as Nat. -/
structure NodeImpl (ν : Type) where
  same : Bool
  nodeId : ν → Nat
  posHash : ν → Nat

/-- NodeDetails of the current revision: node, accrued cost g, heuristic
estimate h, and the parent identity key. -/
structure NodeDetails (ν : Type) where
  node : ν
  current_accrued_cost : Int
  estimated_cost_to_goal : Int
  parent : Option Nat
deriving DecidableEq, Repr

/-- f = g + h, the sort key (sum_accrued_plus_estimated_cost). -/
def NodeDetails.sum_accrued_plus_estimated_cost {ν : Type}
    (d : NodeDetails ν) : Int :=
  d.current_accrued_cost + d.estimated_cost_to_goal

/-- NodeDetails::new - root record, no parent. -/
def NodeDetails.new {ν : Type} (node : ν) (g h : Int) : NodeDetails ν :=
  ⟨node, g, h, none⟩

/-- NodeDetails::new_with_parent - stores the parent identity key. -/
def NodeDetails.new_with_parent {ν : Type} (cn : NodeImpl ν) (node : ν)
    (g h : Int) (parent : NodeDetails ν) : NodeDetails ν :=
  ⟨node, g, h, some (cn.nodeId parent.node)⟩

/-- A successor: node and the incremental edge cost. -/
structure Successor (ν : Type) where
  node : ν
  cost_to_move_here : Int

/-- The registry: Frontier (candidate_nodes), History (node_history), the
cost index, and the position-key to minimum-accrued-cost table. -/
structure NodeList (ν : Type) where
  candidate_nodes : List (Nat × NodeDetails ν)
  node_history : List (Nat × NodeDetails ν)
  cost_indexing : List (Int × List Nat)
  position_hash_to_min_accrued_cost : List (Nat × Int)
deriving DecidableEq, Repr

/-- The error taxonomy of the current revision; Panicked is the embedding of
a Rust panic (unwrap/expect failure), which the source does not catch. -/
inductive Error where
  | NoSolutionFound
  | IterLimitExceeded
  | UnexpectedError
  | Panicked
deriving DecidableEq, Repr

/-- A reconstructed path and its total accrued cost. -/
structure ComputationResult (ν : Type) where
  shortest_path : List ν
  shortest_path_cost : Int
deriving DecidableEq, Repr

/-- Options: only iteration_limit is semantically relevant (log_interval and
suppress_logs drive logging only). -/
structure Options where
  iteration_limit : Option Nat
deriving DecidableEq, Repr

def Options.default : Options := ⟨none⟩

/-- usize::MAX on the 64-bit targets the crate is built for. -/
def usizeMax : Nat := 2 ^ 64 - 1

variable {ν : Type} [DecidableEq ν]

/-- NodeList::insert_candidate. -/
def insert_candidate (cn : NodeImpl ν) (self : NodeList ν)
    (node : NodeDetails ν) (id? pos? : Option Nat) : NodeList ν :=
  let id := id?.getD (cn.nodeId node.node)
  let estimated_cost := node.sum_accrued_plus_estimated_cost
  let accrued_cost := node.current_accrued_cost
  let position := pos?.getD (if cn.same then id else cn.posHash node.node)
  { candidate_nodes := mapInsert id node self.candidate_nodes
    node_history := self.node_history
    cost_indexing := costInsert estimated_cost id self.cost_indexing
    position_hash_to_min_accrued_cost :=
      match mapLookup position self.position_hash_to_min_accrued_cost with
      | some existing =>
          mapInsert position (min accrued_cost existing)
            self.position_hash_to_min_accrued_cost
      | none =>
          mapInsert position accrued_cost
            self.position_hash_to_min_accrued_cost }

/-- NodeList::new - the start record is created with g = h = 0. -/
def NodeList.new (cn : NodeImpl ν) (start : ν) : NodeList ν :=
  insert_candidate cn ⟨[], [], [], []⟩ (NodeDetails.new start 0 0) none none

/-- NodeList::remove_candidate; none models the expect/unwrap panics on an
inconsistent registry. -/
def remove_candidate (self : NodeList ν) (index : Nat) :
    Option (NodeDetails ν × NodeList ν) :=
  match mapLookup index self.candidate_nodes with
  | none => none
  | some node =>
    let cost := node.sum_accrued_plus_estimated_cost
    match costRemove cost index self.cost_indexing with
    | none => none
    | some ci =>
      some (node,
        { self with
            candidate_nodes := mapErase index self.candidate_nodes
            cost_indexing := ci })

/-- NodeList::try_insert_successor; none models a propagated panic. -/
def try_insert_successor (cn : NodeImpl ν) (self : NodeList ν)
    (details : NodeDetails ν) : Option (NodeList ν) :=
  let position := cn.posHash details.node
  let accrued_cost := details.current_accrued_cost
  let rejected : Bool :=
    match mapLookup position self.position_hash_to_min_accrued_cost with
    | some existing =>
        if cn.same then decide (existing ≤ accrued_cost)
        else decide (existing < accrued_cost)
    | none => false
  if rejected then some self
  else
    let id := if cn.same then position else cn.nodeId details.node
    match mapLookup id self.candidate_nodes with
    | some existing =>
      if cn.same = true ∧ existing.current_accrued_cost ≤ accrued_cost then
        some self
      else
        match remove_candidate self id with
        | none => none
        | some (_, self') =>
          some (insert_candidate cn self' details (some id) (some position))
    | none =>
      if cn.same = true then
        match mapLookup id self.node_history with
        | some existing =>
          if existing.current_accrued_cost ≤ accrued_cost then some self
          else
            some (insert_candidate cn self details (some id) (some position))
        | none =>
          some (insert_candidate cn self details (some id) (some position))
      else
        some (insert_candidate cn self details (some id) (some position))

/-- NodeList::get_next: pop the least identity key of the least-cost bucket,
move its record into History, and return the record together with the
remaining frontier size and the updated registry. -/
def get_next (self : NodeList ν) :
    Except Error (NodeDetails ν × Nat × NodeList ν) :=
  match self.cost_indexing.head? with
  | none => .error .NoSolutionFound
  | some (_, ids) =>
    match ids.head? with
    | none => .error .NoSolutionFound
    | some index =>
      match remove_candidate self index with
      | none => .error .Panicked
      | some (node, self') =>
        let self'' :=
          { self' with
              node_history := mapInsert index node self'.node_history }
        match mapLookup index self''.node_history with
        | none => .error .UnexpectedError
        | some result =>
          .ok (result, self''.candidate_nodes.length, self'')

/-- The backtrace walk of make_results: follow parent keys through History,
removing each visited entry (node_history.remove(..).unwrap()); none models
the panic when a parent key is absent.  The fuel history.length + 1 is
always sufficient: every continuing step removes one History entry. -/
def backtrace_remove (ν : Type) [DecidableEq ν] :
    Nat → Option Nat → List (Nat × NodeDetails ν) → List ν → Option (List ν)
  | 0, parent, _, acc =>
    match parent with
    | none => some acc
    | some _ => none
  | _ + 1, none, _, acc => some acc
  | fuel + 1, some parent_hash, history, acc =>
    match mapLookup parent_hash history with
    | none => none
    | some node =>
      backtrace_remove ν fuel node.parent (mapErase parent_hash history)
        (node.node :: acc)

/-- make_results: reconstruct the path (start to goal order) and take the
total accrued cost from the terminal record. -/
def make_results (end_details : NodeDetails ν) (node_list : NodeList ν) :
    Option (ComputationResult ν) :=
  match
    backtrace_remove ν (node_list.node_history.length + 1) end_details.parent
      node_list.node_history [end_details.node] with
  | none => none
  | some results =>
    some ⟨results, end_details.current_accrued_cost⟩

/-- The backtrace walk of make_results_multiple: reads History without
removing (node_history.get(..).unwrap()).  none models the panic on a
missing parent key, and also the non-termination of the source loop on a
cyclic parent chain (which the fuel cuts off). -/
def backtrace_get (ν : Type) [DecidableEq ν] :
    Nat → Option Nat → List (Nat × NodeDetails ν) → List ν → Option (List ν)
  | 0, parent, _, acc =>
    match parent with
    | none => some acc
    | some _ => none
  | _ + 1, none, _, acc => some acc
  | fuel + 1, some parent_hash, history, acc =>
    match mapLookup parent_hash history with
    | none => none
    | some node => backtrace_get ν fuel node.parent history (node.node :: acc)

/-- make_results_multiple: backtrace every collected record against the
shared read-only History. -/
def make_results_multiple (ends : List (NodeDetails ν))
    (node_list : NodeList ν) : Option (List (ComputationResult ν)) :=
  match ends with
  | [] => some []
  | end_details :: rest =>
    match
      backtrace_get ν (node_list.node_history.length + 1) end_details.parent
        node_list.node_history [end_details.node] with
    | none => none
    | some results =>
      match make_results_multiple rest node_list with
      | none => none
      | some tail =>
        some (⟨results, end_details.current_accrued_cost⟩ :: tail)

/-- The successor-processing block of a_star_search: walk the successor list
in order; the first successor accepted by the termination predicate aborts
the walk with its terminal record (h = 0); otherwise every successor is
scored by the distance function and collected. -/
def build_successors (cn : NodeImpl ν) (distance_function : ν → Int → Int)
    (is_at_end_function : ν → Bool) (parent : NodeDetails ν) :
    List (Successor ν) → Except (NodeDetails ν) (List (NodeDetails ν))
  | [] => .ok []
  | ⟨successor, distance⟩ :: rest =>
    let to_current := parent.current_accrued_cost + distance
    if is_at_end_function successor then
      .error (NodeDetails.new_with_parent cn successor to_current 0 parent)
    else
      let to_end := distance_function successor to_current
      match build_successors cn distance_function is_at_end_function parent
          rest with
      | .error e => .error e
      | .ok results =>
        .ok (NodeDetails.new_with_parent cn successor to_current to_end parent
          :: results)

/-- Insert a batch of successor records one by one, threading a panic. -/
def insert_all (cn : NodeImpl ν) :
    List (NodeDetails ν) → NodeList ν → Option (NodeList ν)
  | [], node_list => some node_list
  | d :: rest, node_list =>
    match try_insert_successor cn node_list d with
    | none => none
    | some node_list' => insert_all cn rest node_list'

/-- The loop of a_star_search; the fuel is the number of remaining loop
iterations (for i in 1..iteration_limit runs iteration_limit - 1 of them). -/
def search_loop (cn : NodeImpl ν) (get_successors : ν → List (Successor ν))
    (distance_function : ν → Int → Int) (is_at_end_function : ν → Bool) :
    Nat → NodeList ν → Except Error (ComputationResult ν)
  | 0, _ => .error .IterLimitExceeded
  | fuel + 1, node_list =>
    match get_next node_list with
    | .error e => .error e
    | .ok (parent, _, node_list) =>
      match
        build_successors cn distance_function is_at_end_function parent
          (get_successors parent.node) with
      | .error end_details =>
        match make_results end_details node_list with
        | none => .error .Panicked
        | some r => .ok r
      | .ok successors =>
        match insert_all cn successors node_list with
        | none => .error .Panicked
        | some node_list =>
          search_loop cn get_successors distance_function is_at_end_function
            fuel node_list

/-- search_loop instrumented with the count of expansion steps (successful
extractions); it performs the same computation and its count never exceeds
the fuel. -/
def search_loop_steps (cn : NodeImpl ν)
    (get_successors : ν → List (Successor ν))
    (distance_function : ν → Int → Int) (is_at_end_function : ν → Bool) :
    Nat → NodeList ν → Nat × Except Error (ComputationResult ν)
  | 0, _ => (0, .error .IterLimitExceeded)
  | fuel + 1, node_list =>
    match get_next node_list with
    | .error e => (0, .error e)
    | .ok (parent, _, node_list) =>
      match
        build_successors cn distance_function is_at_end_function parent
          (get_successors parent.node) with
      | .error end_details =>
        match make_results end_details node_list with
        | none => (1, .error .Panicked)
        | some r => (1, .ok r)
      | .ok successors =>
        match insert_all cn successors node_list with
        | none => (1, .error .Panicked)
        | some node_list =>
          let sr :=
            search_loop_steps cn get_successors distance_function
              is_at_end_function fuel node_list
          (sr.1 + 1, sr.2)

/-- a_star_search: single-goal search. -/
def a_star_search (cn : NodeImpl ν) (start : ν)
    (get_successors : ν → List (Successor ν))
    (distance_function : ν → Int → Int) (is_at_end_function : ν → Bool)
    (options : Option Options) : Except Error (ComputationResult ν) :=
  let options := options.getD Options.default
  search_loop cn get_successors distance_function is_at_end_function
    (options.iteration_limit.getD usizeMax - 1) (NodeList.new cn start)

/-- The successor-processing block of a_star_search_all_with_max_score:
discard any successor whose accrued cost exceeds the ceiling, append every
remaining goal successor to the result collection, and collect the rest as
candidates.  Returns (candidates, collected goal records in order). -/
def build_successors_all (cn : NodeImpl ν) (max_score : Int)
    (distance_function : ν → Int → Int) (is_at_end_function : ν → Bool)
    (parent : NodeDetails ν) :
    List (Successor ν) → List (NodeDetails ν) × List (NodeDetails ν)
  | [] => ([], [])
  | ⟨successor, distance⟩ :: rest =>
    let to_current := parent.current_accrued_cost + distance
    let (next_parents, goals) :=
      build_successors_all cn max_score distance_function is_at_end_function
        parent rest
    if max_score < to_current then (next_parents, goals)
    else if is_at_end_function successor then
      (next_parents,
        NodeDetails.new_with_parent cn successor to_current 0 parent :: goals)
    else
      let to_end := distance_function successor to_current
      (NodeDetails.new_with_parent cn successor to_current to_end parent
        :: next_parents, goals)

/-- The loop of a_star_search_all_with_max_score. -/
def search_all_loop (cn : NodeImpl ν) (max_score : Int)
    (get_successors : ν → List (Successor ν))
    (distance_function : ν → Int → Int) (is_at_end_function : ν → Bool) :
    Nat → NodeList ν → List (NodeDetails ν) →
    Except Error (List (ComputationResult ν))
  | 0, _, _ => .error .IterLimitExceeded
  | fuel + 1, node_list, scoring_results =>
    match get_next node_list with
    | .error .Panicked => .error .Panicked
    | .error _ =>
      if scoring_results = [] then .error .NoSolutionFound
      else
        match make_results_multiple scoring_results node_list with
        | none => .error .Panicked
        | some rs => .ok rs
    | .ok (parent, _, node_list) =>
      let (next_parents, goals) :=
        build_successors_all cn max_score distance_function is_at_end_function
          parent (get_successors parent.node)
      match insert_all cn next_parents node_list with
      | none => .error .Panicked
      | some node_list =>
        search_all_loop cn max_score get_successors distance_function
          is_at_end_function fuel node_list (scoring_results ++ goals)

/-- a_star_search_all_with_max_score: budgeted multi-goal search. -/
def a_star_search_all_with_max_score (cn : NodeImpl ν) (max_score : Int)
    (start : ν) (get_successors : ν → List (Successor ν))
    (distance_function : ν → Int → Int) (is_at_end_function : ν → Bool)
    (options : Option Options) :
    Except Error (List (ComputationResult ν)) :=
  let options := options.getD Options.default
  search_all_loop cn max_score get_successors distance_function
    is_at_end_function (options.iteration_limit.getD usizeMax - 1)
    (NodeList.new cn start) []

/-- An injective embedding of Int into Nat, standing in for the (injective)
identity-key assignment of the tests (whose hash values are opaque); on the
runs below no two frontier records ever tie on f, so the results do not
depend on the key order this choice induces. -/
def intEnc : Int → Nat :=
  fun n => if 0 ≤ n then 2 * n.toNat else 2 * (-n).toNat - 1

/-- The TestNode instance of the tests in src/a_star/mod.rs: identity and
position keys coincide. -/
def testCn : NodeImpl Int := ⟨true, intEnc, intEnc⟩

/-- The successor function of the tests: n - 1 and n + 1, each at cost 1. -/
def gsLine : Int → List (Successor Int) :=
  fun n => [⟨n - 1, 1⟩, ⟨n + 1, 1⟩]

/-- Run one get_next, keeping the state (helper for building concrete
registry states). -/
def next_state (s : NodeList ν) : NodeList ν :=
  match get_next s with
  | .ok (_, _, s') => s'
  | .error _ => s

/-- Run one try_insert_successor, keeping the state. -/
def ins_state (cn : NodeImpl ν) (s : NodeList ν) (d : NodeDetails ν) :
    NodeList ν :=
  (try_insert_successor cn s d).getD s

/-- A CustomNode instance on Nat with coinciding identity and position
keys. -/
def cnNat : NodeImpl Nat := ⟨true, id, id⟩

/-- Distance function of the should_find_seven test: absolute difference to
the target 7. -/
def df_seven : Int → Int → Int := fun n _ => ((n - 7).natAbs : Int)

/-- Termination predicate of the should_find_seven test. -/
def ie_seven : Int → Bool := fun n => n == 7

/-- Distance function of the should_find_both_paths test. -/
def df_square : Int → Int → Int := fun n _ => ((n * n - 25).natAbs : Int)

/-- Termination predicate of the should_find_both_paths test: the node
squared equals 25. -/
def ie_square : Int → Bool := fun n => n * n == 25

/-- Distance function for a search whose target is the start node 1. -/
def df_start_goal : Int → Int → Int := fun n _ => ((n - 1).natAbs : Int)

/-- Termination predicate accepting exactly the start node 1. -/
def ie_start_goal : Int → Bool := fun n => n == 1

/-- Successor function on Nat: the single successor n + 1 at cost 1. -/
def gs_up : Nat → List (Successor Nat) :=
  fun n => [⟨n + 1, 1⟩]

/-- The constantly zero distance function on Nat nodes. -/
def df_zero_nat : Nat → Int → Int := fun _ _ => 0

/-- Termination predicate on Nat accepting exactly node 1. -/
def ie_one_nat : Nat → Bool := fun n => n == 1

/-- Termination predicate on Nat accepting exactly node 2. -/
def ie_two_nat : Nat → Bool := fun n => n == 2

/-- A CustomNode instance whose identity key function is constant (the
identity key of every node is 7) while positions stay distinct; legal for
the trait as modelled, and it makes successive History insertions overwrite
one another. -/
def cnC6 : NodeImpl Nat := ⟨false, fun _ => 7, fun n => n⟩

/-- Every identity key bound in the Frontier is absent from the History. -/
def frontier_history_disjoint (s : NodeList ν) : Prop :=
  ∀ p ∈ s.candidate_nodes, mapLookup p.1 s.node_history = none

instance (s : NodeList ν) : Decidable (frontier_history_disjoint s) := by
  unfold frontier_history_disjoint
  infer_instance

/-- A registry state reached during a single-goal search over the graph
0 to 1 at cost 10 and 0 to 2 at cost 1 and 2 to 1 at cost 1, with h 1 = 0
and h 2 = 100 and no goal: construction on start 0, extraction of 0,
insertion of its two successors, extraction of 1 (f 10) and of 2 (f 101),
then insertion of the rediscovery of node 1 through 2 at accrued cost 2. -/
def c3s : NodeList Nat :=
  ins_state cnNat
    (next_state (next_state
      (ins_state cnNat
        (ins_state cnNat (next_state (NodeList.new cnNat 0))
          ⟨1, 10, 0, some 0⟩)
        ⟨2, 1, 100, some 0⟩)))
    ⟨1, 2, 0, some 2⟩

/-- Every binding in Frontier and History is keyed by the identity key of
its record's node (true of every state the registry operations build). -/
def keys_match (cn : NodeImpl ν) (s : NodeList ν) : Prop :=
  (∀ p ∈ s.candidate_nodes, p.1 = cn.nodeId p.2.node) ∧
  (∀ p ∈ s.node_history, p.1 = cn.nodeId p.2.node)

instance (cn : NodeImpl ν) (s : NodeList ν) : Decidable (keys_match cn s) :=
  by unfold keys_match; infer_instance

/-- The position table dominates a record: it binds the record's position
key to a value no larger than the record's accrued cost. -/
def le_posmap (cn : NodeImpl ν) (s : NodeList ν) (p : Nat × NodeDetails ν) :
    Bool :=
  match mapLookup (cn.posHash p.2.node)
      s.position_hash_to_min_accrued_cost with
  | some v => decide (v ≤ p.2.current_accrued_cost)
  | none => false

/-- The position table dominates every Frontier and History record (the
table keeps the minimum accrued cost ever inserted per position and every
record passed through an insertion). -/
def pos_min_ok (cn : NodeImpl ν) (s : NodeList ν) : Prop :=
  (∀ p ∈ s.candidate_nodes, le_posmap cn s p = true) ∧
  (∀ p ∈ s.node_history, le_posmap cn s p = true)

instance (cn : NodeImpl ν) (s : NodeList ν) : Decidable (pos_min_ok cn s) :=
  by unfold pos_min_ok; infer_instance

/-- A CustomNode instance with distinct identity and position keys: the
identity key is the node value, the position key its tens digit group. -/
def cnC2 : NodeImpl Nat := ⟨false, id, fun n => n / 10⟩

/-- A registry state reached during a search under cnC2: construction on
start 0, extraction of 0, insertion of its successors 13 (accrued 2) and 41
(accrued 1, f 2), extraction of 41.  The Frontier holds identity key 13
with accrued cost 2. -/
def c2s : NodeList Nat :=
  next_state (ins_state cnC2
    (ins_state cnC2 (next_state (NodeList.new cnC2 0)) ⟨13, 2, 10, some 0⟩)
    ⟨41, 1, 1, some 0⟩)

/-- The rediscovery of node 13 through 41 at the same accrued cost 2: same
identity key and equal accrued cost as the Frontier record of c2s, but a
different parent. -/
def c2r : NodeDetails Nat := ⟨13, 2, 10, some 41⟩

/-- A registry state under cnNat: construction on start 0, extraction of 0,
insertion of successor 1 at accrued cost 5. -/
def c2w : NodeList Nat :=
  ins_state cnNat (next_state (NodeList.new cnNat 0)) ⟨1, 5, 0, some 0⟩

/-- Well-formedness of the cost index against the Frontier: the index is
strictly sorted by cost with nonempty strictly sorted buckets, every bucket
entry resolves to a Frontier record of that cost, and every Frontier record
is listed in the bucket of its cost.  Every state the registry operations
build satisfies this. -/
def registry_wf (s : NodeList ν) : Prop :=
  List.Pairwise (fun a b => a.1 < b.1) s.cost_indexing ∧
  (∀ b ∈ s.cost_indexing,
    b.2 ≠ [] ∧ List.Pairwise (fun i j => i < j) b.2) ∧
  (∀ b ∈ s.cost_indexing, ∀ i ∈ b.2,
    (mapLookup i s.candidate_nodes).map
      (fun r => r.sum_accrued_plus_estimated_cost) = some b.1) ∧
  (∀ p ∈ s.candidate_nodes,
    p.1 ∈ (mapLookup p.2.sum_accrued_plus_estimated_cost
      s.cost_indexing).getD [])

instance (s : NodeList ν) : Decidable (registry_wf s) := by
  unfold registry_wf
  infer_instance

/-- The record component of a successful extraction. -/
def next_record (s : NodeList ν) : Option (NodeDetails ν) :=
  match get_next s with
  | .ok (r, _, _) => some r
  | .error _ => none

/-- A CustomNode instance whose identity-key order reverses the node order
(identity key 100 - n), with the position key the node itself. -/
def cnC5 : NodeImpl Nat := ⟨false, fun n => 100 - n, id⟩

/-- A registry state reached during a search under cnC5: construction on
start 50, extraction of 50, insertion of its successors 5 (identity key 95)
and 7 (identity key 93), both at accrued cost 1 and estimate 2, so both
with f = 3. -/
def c5s : NodeList Nat :=
  ins_state cnC5
    (ins_state cnC5 (next_state (NodeList.new cnC5 50)) ⟨5, 1, 2, some 50⟩)
    ⟨7, 1, 2, some 50⟩

/-- Termination predicate that never accepts: no node is a goal. -/
def ie_false_nat : Nat → Bool := fun _ => false

/-- The record for node k in the infinite-line search (successor function
gs_up, start 0, zero heuristic): accrued cost k, parent k - 1. -/
def lineRec (k : Nat) : NodeDetails Nat :=
  ⟨k, (k : Int), 0, if k = 0 then none else some (k - 1)⟩

/-- The position table of the infinite-line search after k expansions. -/
def linePos : Nat → List (Nat × Int)
  | 0 => [(0, 0)]
  | k + 1 => (k + 1, ((k + 1 : Nat) : Int)) :: linePos k

/-- The History of the infinite-line search after k expansions. -/
def lineHist : Nat → List (Nat × NodeDetails Nat)
  | 0 => []
  | k + 1 => (k, lineRec k) :: lineHist k

/-- The registry state of the infinite-line search after k expansions: the
Frontier holds exactly node k. -/
def lineState (k : Nat) : NodeList Nat :=
  ⟨[(k, lineRec k)], lineHist k, [((k : Int), [k])], linePos k⟩

end AStar

namespace OldAStar

/-- NodeDetails of src/a_star.rs: g, h, and an owned parent chain
(Option of a boxed (node, details) pair, embedded as two constructors). -/
inductive NodeDetails (ν : Type) : Type where
  | root (g h : Int)
  | child (g h : Int) (parent_node : ν) (parent_details : NodeDetails ν)
deriving DecidableEq, Repr

def NodeDetails.g {ν : Type} : NodeDetails ν → Int
  | .root g _ => g
  | .child g _ _ _ => g

def NodeDetails.h {ν : Type} : NodeDetails ν → Int
  | .root _ h => h
  | .child _ h _ _ => h

/-- f = g + h. -/
def NodeDetails.f {ν : Type} (d : NodeDetails ν) : Int := d.g + d.h

/-- The error type of src/a_star.rs (MutexError is unreachable in this
single-threaded embedding and never produced). -/
inductive AStarError where
  | NoSolutionFound
  | MutexError
deriving DecidableEq, Repr

variable {ν : Type} [DecidableEq ν] [LinearOrder ν]

/-- sorting_function: order open-list entries by f, ties by the node's
natural order. -/
def entryLt (a b : ν × NodeDetails ν) : Prop :=
  a.2.f < b.2.f ∨ (a.2.f = b.2.f ∧ a.1 < b.1)

instance : DecidableRel (entryLt (ν := ν)) := fun a b => by
  unfold entryLt; infer_instance

/-- iter().min_by(sorting_function): the first minimum in iteration order;
on key-distinct entries the comparator is a strict total order, so the fold
below is the unique minimum regardless of iteration order. -/
def minEntry (l : List (ν × NodeDetails ν)) : Option (ν × NodeDetails ν) :=
  l.foldl
    (fun acc x =>
      match acc with
      | none => some x
      | some a => if entryLt x a then some x else some a)
    none

/-- Insertion into a list sorted by sorting_function. -/
def insertSorted (x : ν × NodeDetails ν) :
    List (ν × NodeDetails ν) → List (ν × NodeDetails ν)
  | [] => [x]
  | y :: rest => if entryLt x y then x :: y :: rest else y :: insertSorted x rest

/-- sort_by(sorting_function). -/
def sortEntries (l : List (ν × NodeDetails ν)) : List (ν × NodeDetails ν) :=
  l.foldr insertSorted []

/-- run_get_successors: walk the successor list; the first successor equal
to the end node aborts with a terminal record (discarding the successors
collected so far), otherwise every successor is scored and collected. -/
def run_get_successors (get_successors : ν → List (AStar.Successor ν))
    (distance_function : ν → Int → Int) (end_node : ν) (q_node : ν)
    (q_details : NodeDetails ν) :
    List (ν × NodeDetails ν) × Option (ν × NodeDetails ν) :=
  let rec go : List (AStar.Successor ν) →
      List (ν × NodeDetails ν) × Option (ν × NodeDetails ν)
    | [] => ([], none)
    | ⟨successor, distance⟩ :: rest =>
      let to_current := q_details.g + distance
      if successor = end_node then
        ([], some (successor, .child to_current 0 q_node q_details))
      else
        let to_end := distance_function successor to_current
        let (results, done) := go rest
        ((successor, .child to_current to_end q_node q_details) :: results,
          done)
  go (get_successors q_node)

/-- make_results: unwind the owned parent chain, start to goal order. -/
def make_results (end_node : ν) (details : NodeDetails ν) : List ν :=
  let rec go : ν → NodeDetails ν → List ν → List ν
    | n, .root _ _, acc => n :: acc
    | n, .child _ _ p pd, acc => go p pd (n :: acc)
  go end_node details []

/-- The dominance filter of the merge phase: skip a successor if the open or
closed list holds a record of the same node with strictly smaller f,
otherwise insert (replacing any record of that node). -/
def merge_successors (l : List (ν × NodeDetails ν))
    (closed_list : List (ν × NodeDetails ν))
    (open_list : List (ν × NodeDetails ν)) : List (ν × NodeDetails ν) :=
  match l with
  | [] => open_list
  | (successor, details) :: rest =>
    let skip : Bool :=
      (match AStar.mapLookup successor open_list with
       | some existing => decide (existing.f < details.f)
       | none => false) ||
      (match AStar.mapLookup successor closed_list with
       | some existing => decide (existing.f < details.f)
       | none => false)
    if skip then merge_successors rest closed_list open_list
    else merge_successors rest closed_list
      (AStar.mapInsert successor details open_list)

/-- closed_list.extend(q_nodes). -/
def extend_closed (closed_list : List (ν × NodeDetails ν)) :
    List (ν × NodeDetails ν) → List (ν × NodeDetails ν)
  | [] => closed_list
  | (n, d) :: rest => extend_closed (AStar.mapInsert n d closed_list) rest

/-- Remove a batch of popped nodes from the open list. -/
def remove_batch (open_list : List (ν × NodeDetails ν)) :
    List (ν × NodeDetails ν) → List (ν × NodeDetails ν)
  | [] => open_list
  | (n, _) :: rest => remove_batch (AStar.mapErase n open_list) rest

/-- Worker results of one parallel batch, joined in batch order: the
concatenated candidate records and the terminal records. -/
def run_batch (get_successors : ν → List (AStar.Successor ν))
    (distance_function : ν → Int → Int) (end_node : ν) :
    List (ν × NodeDetails ν) →
    List (ν × NodeDetails ν) × List (ν × NodeDetails ν)
  | [] => ([], [])
  | (q_node, q_details) :: rest =>
    let (successors, done) :=
      run_get_successors get_successors distance_function end_node q_node
        q_details
    let (succ_rest, final_rest) :=
      run_batch get_successors distance_function end_node rest
    (successors ++ succ_rest,
      match done with
      | some t => t :: final_rest
      | none => final_rest)

/-- final_results.into_iter().min_by(g): first minimum by accrued cost. -/
def minByG (l : List (ν × NodeDetails ν)) : Option (ν × NodeDetails ν) :=
  l.foldl
    (fun acc x =>
      match acc with
      | none => some x
      | some a => if x.2.g < a.2.g then some x else some a)
    none

/-- The while loop of a_star_search in src/a_star.rs, fuel-indexed: none
means the fuel ran out with the loop still running.  The result pairs the
reconstructed path with the accrued cost of the terminal record. -/
def old_loop (run_in_parallel : Bool) (threads : Nat)
    (get_successors : ν → List (AStar.Successor ν))
    (distance_function : ν → Int → Int) (end_node : ν) :
    Nat → List (ν × NodeDetails ν) → List (ν × NodeDetails ν) →
    Option (Except AStarError (List ν × Int))
  | 0, _, _ => none
  | fuel + 1, open_list, closed_list =>
    if open_list = [] then some (.error .NoSolutionFound)
    else
      let q_nodes :=
        if run_in_parallel then (sortEntries open_list).take threads
        else
          match minEntry open_list with
          | some e => [e]
          | none => []
      let open_list := remove_batch open_list q_nodes
      match q_nodes with
      | [(q_node, q_details)] =>
        let (successors, done) :=
          run_get_successors get_successors distance_function end_node q_node
            q_details
        match done with
        | some (node, details) =>
          some (.ok (make_results node details, details.g))
        | none =>
          old_loop run_in_parallel threads get_successors distance_function
            end_node fuel
            (merge_successors successors closed_list open_list)
            (extend_closed closed_list [(q_node, q_details)])
      | q_nodes =>
        let (successors, final_results) :=
          run_batch get_successors distance_function end_node q_nodes
        match minByG final_results with
        | some (node, details) =>
          some (.ok (make_results node details, details.g))
        | none =>
          old_loop run_in_parallel threads get_successors distance_function
            end_node fuel (merge_successors successors closed_list open_list)
            (extend_closed closed_list q_nodes)

/-- a_star_search of src/a_star.rs (fuel-indexed; threads stands for
num_cpus::get() in parallel mode). -/
def a_star_search (run_in_parallel : Bool) (threads : Nat) (start : ν)
    (end_node : ν) (get_successors : ν → List (AStar.Successor ν))
    (distance_function : ν → Int → Int) (fuel : Nat) :
    Option (Except AStarError (List ν × Int)) :=
  old_loop run_in_parallel threads get_successors distance_function end_node
    fuel [(start, .root 0 0)] []

/-- Successor function of the C1 graph on Int labels 0..6: 0 branches to 1
and 2; 1 leads to 3, 3 to the goal 6 at cost 1; 2 leads to the traps 4 and
5, with 4 reaching the goal 6 at cost 100 and 5 a dead end. -/
def gsC1 : Int → List (AStar.Successor Int) := fun n =>
  if n = 0 then [⟨1, 1⟩, ⟨2, 1⟩]
  else if n = 1 then [⟨3, 1⟩]
  else if n = 2 then [⟨4, 1⟩, ⟨5, 1⟩]
  else if n = 3 then [⟨6, 1⟩]
  else if n = 4 then [⟨6, 100⟩]
  else []

/-- Heuristic of the C1 graph: the large negative estimates on the trap
nodes 4 and 5 pull them to the front of the frontier. -/
def dfC1 : Int → Int → Int := fun n _ =>
  if n = 1 then 0
  else if n = 2 then 2
  else if n = 3 then 0
  else if n = 4 then -1000
  else if n = 5 then -999
  else 0

end OldAStar

namespace AStar

variable {ν : Type} [DecidableEq ν]

/-- Fuel monotonicity of the single-goal loop: any outcome other than
IterLimitExceeded is stable under raising the iteration limit. -/
theorem search_loop_mono (cn : NodeImpl ν)
    (gs : ν → List (Successor ν)) (df : ν → Int → Int) (ie : ν → Bool) :
    ∀ (fuel fuel' : Nat) (s : NodeList ν),
      fuel ≤ fuel' →
      search_loop cn gs df ie fuel s ≠ .error .IterLimitExceeded →
      search_loop cn gs df ie fuel' s = search_loop cn gs df ie fuel s := by
  intro fuel
  induction fuel with
  | zero => intro fuel' s _ hne; simp [search_loop] at hne
  | succ f ih =>
    intro fuel' s hle hne
    obtain ⟨f', rfl⟩ : ∃ g, fuel' = g + 1 := ⟨fuel' - 1, by omega⟩
    have hff : f ≤ f' := by omega
    simp only [search_loop] at hne ⊢
    cases hget : get_next s with
    | error e => simp [hget]
    | ok v =>
      obtain ⟨parent, len, nl⟩ := v
      simp only [hget] at hne ⊢
      cases hbs : build_successors cn df ie parent (gs parent.node) with
      | error ed => simp [hbs]
      | ok succs =>
        simp only [hbs] at hne ⊢
        cases hins : insert_all cn succs nl with
        | none => simp [hins]
        | some nl' =>
          simp only [hins] at hne ⊢
          exact ih f' nl' hff hne

/-- Fuel monotonicity of the budgeted loop. -/
theorem search_all_loop_mono (cn : NodeImpl ν) (max_score : Int)
    (gs : ν → List (Successor ν)) (df : ν → Int → Int) (ie : ν → Bool) :
    ∀ (fuel fuel' : Nat) (s : NodeList ν) (res : List (NodeDetails ν)),
      fuel ≤ fuel' →
      search_all_loop cn max_score gs df ie fuel s res ≠
        .error .IterLimitExceeded →
      search_all_loop cn max_score gs df ie fuel' s res =
        search_all_loop cn max_score gs df ie fuel s res := by
  intro fuel
  induction fuel with
  | zero => intro fuel' s res _ hne; simp [search_all_loop] at hne
  | succ f ih =>
    intro fuel' s res hle hne
    obtain ⟨f', rfl⟩ : ∃ g, fuel' = g + 1 := ⟨fuel' - 1, by omega⟩
    have hff : f ≤ f' := by omega
    simp only [search_all_loop] at hne ⊢
    cases hget : get_next s with
    | error e =>
      cases e <;> simp [hget]
    | ok v =>
      obtain ⟨parent, len, nl⟩ := v
      simp only [hget] at hne ⊢
      cases hins :
          insert_all cn
            (build_successors_all cn max_score df ie parent
              (gs parent.node)).1 nl with
      | none => simp [hins]
      | some nl' =>
        simp only [hins] at hne ⊢
        exact ih f' nl' _ hff hne




/-- C7: with integer nodes, successors n-1 and n+1 at cost 1, start 1 and
termination by equality with 7, the single-goal search returns the path
[1,2,3,4,5,6,7] in start-to-goal order with total accrued cost 6. -/
theorem c7_single_goal_line_path :
    a_star_search testCn 1 gsLine df_seven ie_seven none =
      .ok ⟨[1, 2, 3, 4, 5, 6, 7], 6⟩ := by
  have base :
      search_loop testCn gsLine df_seven ie_seven 20 (NodeList.new testCn 1) =
        .ok ⟨[1, 2, 3, 4, 5, 6, 7], 6⟩ := by rfl
  have hm :=
    search_loop_mono testCn gsLine df_seven ie_seven 20 (usizeMax - 1)
      (NodeList.new testCn 1) (by norm_num [usizeMax])
      (by rw [base]; simp)
  show search_loop testCn gsLine df_seven ie_seven (usizeMax - 1)
      (NodeList.new testCn 1) = _
  rw [hm, base]



/-- C8: with integer nodes, start 0, cost ceiling 5, goal node * node = 25
and successors n-1, n+1 at cost 1, the budgeted search returns exactly two
results, the paths to -5 and to 5, each of total accrued cost 5. -/
theorem c8_budgeted_two_paths :
    a_star_search_all_with_max_score testCn 5 0 gsLine df_square ie_square
      none =
      .ok [⟨[0, -1, -2, -3, -4, -5], 5⟩, ⟨[0, 1, 2, 3, 4, 5], 5⟩] := by
  have base :
      search_all_loop testCn 5 gsLine df_square ie_square 20
        (NodeList.new testCn 0) [] =
        .ok [⟨[0, -1, -2, -3, -4, -5], 5⟩, ⟨[0, 1, 2, 3, 4, 5], 5⟩] := by
    rfl
  have hm :=
    search_all_loop_mono testCn 5 gsLine df_square ie_square 20
      (usizeMax - 1) (NodeList.new testCn 0) [] (by norm_num [usizeMax])
      (by rw [base]; simp)
  show search_all_loop testCn 5 gsLine df_square ie_square (usizeMax - 1)
      (NodeList.new testCn 0) [] = _
  rw [hm, base]

/-- The accumulator of the removing backtrace walk never shrinks. -/
theorem backtrace_remove_length {ν : Type} [DecidableEq ν] :
    ∀ (fuel : Nat) (parent : Option Nat)
      (hist : List (Nat × NodeDetails ν)) (acc res : List ν),
      backtrace_remove ν fuel parent hist acc = some res →
      acc.length ≤ res.length := by
  intro fuel
  induction fuel with
  | zero =>
    intro parent hist acc res h
    cases parent <;> simp [backtrace_remove] at h
    simp [h]
  | succ f ih =>
    intro parent hist acc res h
    cases parent with
    | none =>
      simp [backtrace_remove] at h
      simp [h]
    | some p =>
      simp only [backtrace_remove] at h
      cases hl : mapLookup p hist with
      | none => rw [hl] at h; exact absurd h (by simp)
      | some node =>
        rw [hl] at h
        have := ih node.parent (mapErase p hist) (node.node :: acc) res h
        simp at this
        omega

/-- A successful make_results on a record with a parent key yields a path of
at least two nodes. -/
theorem make_results_length {ν : Type} [DecidableEq ν]
    (ed : NodeDetails ν) (nl : NodeList ν) (r : ComputationResult ν)
    (k : Nat) (hp : ed.parent = some k) (h : make_results ed nl = some r) :
    2 ≤ r.shortest_path.length := by
  unfold make_results at h
  rw [hp] at h
  cases hb : backtrace_remove ν (nl.node_history.length + 1) (some k)
      nl.node_history [ed.node] with
  | none => simp only [hb] at h; exact Option.noConfusion h
  | some results =>
    simp only [hb] at h
    simp at h
    simp only [backtrace_remove] at hb
    cases hl : mapLookup k nl.node_history with
    | none => simp only [hl] at hb; exact Option.noConfusion hb
    | some node =>
      simp only [hl] at hb
      have :=
        backtrace_remove_length nl.node_history.length node.parent
          (mapErase k nl.node_history) (node.node :: [ed.node]) results hb
      simp at this
      rw [← h]
      simpa using this

/-- A terminal record produced by the successor-processing block always
carries the parent's identity key. -/
theorem build_successors_error_parent {ν : Type} [DecidableEq ν]
    (cn : NodeImpl ν) (df : ν → Int → Int) (ie : ν → Bool)
    (parent : NodeDetails ν) :
    ∀ (l : List (Successor ν)) (ed : NodeDetails ν),
      build_successors cn df ie parent l = .error ed →
      ed.parent = some (cn.nodeId parent.node) := by
  intro l
  induction l with
  | nil => intro ed h; simp [build_successors] at h
  | cons sc rest ih =>
    intro ed h
    obtain ⟨s, d⟩ := sc
    simp only [build_successors] at h
    split at h
    · cases h
      rfl
    · cases hr : build_successors cn df ie parent rest with
      | error e =>
        rw [hr] at h
        injection h with h2
        subst h2
        exact ih _ hr
      | ok succs => rw [hr] at h; exact absurd h (by simp)

/-- Any successful single-goal loop outcome has a path of at least two
nodes. -/
theorem search_loop_ok_length {ν : Type} [DecidableEq ν] (cn : NodeImpl ν)
    (gs : ν → List (Successor ν)) (df : ν → Int → Int) (ie : ν → Bool) :
    ∀ (fuel : Nat) (s : NodeList ν) (r : ComputationResult ν),
      search_loop cn gs df ie fuel s = .ok r →
      2 ≤ r.shortest_path.length := by
  intro fuel
  induction fuel with
  | zero => intro s r h; simp [search_loop] at h
  | succ f ih =>
    intro s r h
    simp only [search_loop] at h
    cases hget : get_next s with
    | error e => simp only [hget] at h; exact Except.noConfusion h
    | ok v =>
      obtain ⟨parent, len, nl⟩ := v
      simp only [hget] at h
      cases hbs : build_successors cn df ie parent (gs parent.node) with
      | error ed =>
        simp only [hbs] at h
        cases hm : make_results ed nl with
        | none => simp only [hm] at h; exact Except.noConfusion h
        | some r2 =>
          simp only [hm] at h
          injection h with h2
          subst h2
          exact make_results_length ed nl _ (cn.nodeId parent.node)
            (build_successors_error_parent cn df ie parent _ ed hbs) hm
      | ok succs =>
        simp only [hbs] at h
        cases hins : insert_all cn succs nl with
        | none => simp only [hins] at h; exact Except.noConfusion h
        | some nl2 => simp only [hins] at h; exact ih nl2 r h

/-- C10 (amended): the termination predicate is applied only to successor
nodes, so every successfully returned single-goal path has at least two
nodes (start and goal); a search whose only goal is the start node can
nevertheless succeed, via a cycle that regenerates the start as a
successor, as the counterexample shows. -/
theorem c10_success_path_has_two_nodes {ν : Type} [DecidableEq ν]
    (cn : NodeImpl ν) (start : ν) (gs : ν → List (Successor ν))
    (df : ν → Int → Int) (ie : ν → Bool) (options : Option Options)
    (r : ComputationResult ν)
    (h : a_star_search cn start gs df ie options = .ok r) :
    2 ≤ r.shortest_path.length :=
  search_loop_ok_length cn gs df ie _ _ r h

/-- Witness for c10_success_path_has_two_nodes at a concrete run. -/
theorem c10_success_path_has_two_nodes_witness :
    2 ≤ (ComputationResult.mk ([1, 0, 1] : List Int) 2).shortest_path.length :=
  c10_success_path_has_two_nodes testCn 1 gsLine df_start_goal ie_start_goal
    (some ⟨some 11⟩) ⟨[1, 0, 1], 2⟩ (by rfl)

/-- C10 counterexample: ie_start_goal accepts exactly the start node 1
(it is by definition the test n == 1), yet the search succeeds with the
cyclic path 1, 0, 1 of cost 2 instead of ending in NoSolutionFound or
IterLimitExceeded: the start is regenerated as a successor of node 0 and
only then tested. -/
theorem c10_counterexample :
    ie_start_goal 1 = true ∧
    a_star_search testCn 1 gsLine df_start_goal ie_start_goal
      (some ⟨some 11⟩) = .ok ⟨[1, 0, 1], 2⟩ :=
  ⟨rfl, by rfl⟩

/-- C6: on the failing input below, the parent identity key of the record
being backtraced is missing from History (the constant identity key makes
the second History insertion overwrite the first), and the source panics on
the unwrap in make_results instead of returning the UnexpectedError value:
the run ends in the modelled panic, not in Error.UnexpectedError. -/
theorem c6_backtrace_missing_parent_panics :
    a_star_search cnC6 0 gs_up df_zero_nat ie_two_nat (some ⟨some 11⟩) =
      .error .Panicked ∧ Error.Panicked ≠ Error.UnexpectedError :=
  ⟨by rfl, by decide⟩


/-- A nonempty collection backtraces to a nonempty result list. -/
theorem make_results_multiple_ne_nil {ν : Type} [DecidableEq ν]
    (ends : List (NodeDetails ν)) (nl : NodeList ν)
    (rs : List (ComputationResult ν)) (hne : ends ≠ [])
    (h : make_results_multiple ends nl = some rs) : rs ≠ [] := by
  cases ends with
  | nil => exact absurd rfl hne
  | cons a rest =>
    simp only [make_results_multiple] at h
    cases hb : backtrace_get ν (nl.node_history.length + 1) a.parent
        nl.node_history [a.node] with
    | none => simp only [hb] at h; exact Option.noConfusion h
    | some results =>
      simp only [hb] at h
      cases hm : make_results_multiple rest nl with
      | none => simp only [hm] at h; exact Option.noConfusion h
      | some tail =>
        simp only [hm] at h
        injection h with h2
        subst h2
        simp

/-- The collected-goal component of the budgeted successor-processing block
is exactly the in-budget goal successors, in order, as terminal records. -/
theorem build_successors_all_goals {ν : Type} [DecidableEq ν]
    (cn : NodeImpl ν) (max_score : Int) (df : ν → Int → Int) (ie : ν → Bool)
    (parent : NodeDetails ν) :
    ∀ l : List (Successor ν),
      (build_successors_all cn max_score df ie parent l).2 =
        (l.filter (fun sc =>
          decide (parent.current_accrued_cost + sc.cost_to_move_here ≤
            max_score) && ie sc.node)).map
          (fun sc =>
            NodeDetails.new_with_parent cn sc.node
              (parent.current_accrued_cost + sc.cost_to_move_here) 0
              parent) := by
  intro l
  induction l with
  | nil => simp [build_successors_all]
  | cons sc rest ih =>
    obtain ⟨s, d⟩ := sc
    simp only [build_successors_all]
    by_cases hc : max_score < parent.current_accrued_cost + d
    · have hc2 : ¬ (parent.current_accrued_cost + d ≤ max_score) := by omega
      simp [hc, hc2, List.filter_cons, ih]
    · have hc2 : parent.current_accrued_cost + d ≤ max_score := by omega
      by_cases he : ie s = true
      · simp [hc, hc2, he, List.filter_cons, ih]
      · simp only [Bool.not_eq_true] at he
        simp [hc, hc2, he, List.filter_cons, ih]

/-- A successful budgeted run ends at a state whose frontier is exhausted,
with a nonempty extension of the running collection, whose independent
backtraces are the returned results. -/
theorem search_all_loop_ok_characterization {ν : Type} [DecidableEq ν]
    (cn : NodeImpl ν) (max_score : Int) (gs : ν → List (Successor ν))
    (df : ν → Int → Int) (ie : ν → Bool) :
    ∀ (fuel : Nat) (s : NodeList ν) (res : List (NodeDetails ν))
      (rs : List (ComputationResult ν)),
      search_all_loop cn max_score gs df ie fuel s res = .ok rs →
      rs ≠ [] ∧
      ∃ (s_f : NodeList ν) (res_more : List (NodeDetails ν)) (e : Error),
        get_next s_f = .error e ∧ e ≠ .Panicked ∧ res ++ res_more ≠ [] ∧
        make_results_multiple (res ++ res_more) s_f = some rs := by
  intro fuel
  induction fuel with
  | zero => intro s res rs h; simp [search_all_loop] at h
  | succ f ih =>
    intro s res rs h
    simp only [search_all_loop] at h
    cases hget : get_next s with
    | error e =>
      cases e <;> simp only [hget] at h
      case Panicked => exact Except.noConfusion h
      all_goals {
        split at h
        · exact Except.noConfusion h
        · rename_i hres
          cases hm : make_results_multiple res s with
          | none => simp only [hm] at h; exact Except.noConfusion h
          | some rs2 =>
            simp only [hm] at h
            injection h with h2
            subst h2
            refine ⟨make_results_multiple_ne_nil res s rs2 hres hm, s, [], _,
              hget, by decide, ?_, ?_⟩
            · simpa using hres
            · simpa using hm }
    | ok v =>
      obtain ⟨parent, len, nl⟩ := v
      simp only [hget] at h
      cases hins : insert_all cn
          (build_successors_all cn max_score df ie parent
            (gs parent.node)).1 nl with
      | none => simp only [hins] at h; exact Except.noConfusion h
      | some nl2 =>
        simp only [hins] at h
        obtain ⟨hne, s_f, res_more, e, hg, hep, hnonempty, hmk⟩ :=
          ih nl2
            (res ++ (build_successors_all cn max_score df ie parent
              (gs parent.node)).2) rs h
        refine ⟨hne, s_f,
          (build_successors_all cn max_score df ie parent
            (gs parent.node)).2 ++ res_more, e, hg, hep, ?_, ?_⟩
        · rwa [← List.append_assoc]
        · rwa [← List.append_assoc]

/-- NoSolutionFound comes only from an exhausted frontier with an empty
collection - and since the collection only grows, nothing was ever
collected. -/
theorem search_all_loop_nsf_characterization {ν : Type} [DecidableEq ν]
    (cn : NodeImpl ν) (max_score : Int) (gs : ν → List (Successor ν))
    (df : ν → Int → Int) (ie : ν → Bool) :
    ∀ (fuel : Nat) (s : NodeList ν) (res : List (NodeDetails ν)),
      search_all_loop cn max_score gs df ie fuel s res =
        .error .NoSolutionFound →
      res = [] ∧
      ∃ (s_f : NodeList ν) (e : Error),
        get_next s_f = .error e ∧ e ≠ .Panicked := by
  intro fuel
  induction fuel with
  | zero => intro s res h; simp [search_all_loop] at h
  | succ f ih =>
    intro s res h
    simp only [search_all_loop] at h
    cases hget : get_next s with
    | error e =>
      cases e <;> simp only [hget] at h
      case Panicked =>
        injection h with h2
        exact absurd h2 (by decide)
      all_goals {
        split at h
        · rename_i hres
          exact ⟨hres, s, _, hget, by decide⟩
        · cases hm : make_results_multiple res s with
          | none =>
            simp only [hm] at h
            injection h with h2
            exact absurd h2 (by decide)
          | some rs2 => simp only [hm] at h; exact Except.noConfusion h }
    | ok v =>
      obtain ⟨parent, len, nl⟩ := v
      simp only [hget] at h
      cases hins : insert_all cn
          (build_successors_all cn max_score df ie parent
            (gs parent.node)).1 nl with
      | none =>
        simp only [hins] at h
        injection h with h2
        exact absurd h2 (by decide)
      | some nl2 =>
        simp only [hins] at h
        obtain ⟨hres, hex⟩ :=
          ih nl2
            (res ++ (build_successors_all cn max_score df ie parent
              (gs parent.node)).2) h
        exact ⟨List.append_eq_nil.mp hres |>.1, hex⟩

/-- C4 (amended): in the budgeted multi-goal search a successor that
satisfies the goal predicate and whose accrued cost is within the ceiling
never terminates the loop - its record is appended to the collection (third
conjunct characterizes the appended records; the over-budget goal successors
are discarded by the ceiling before the goal test, as the counterexample
shows); the call returns successfully exactly at frontier exhaustion with at
least one collected result, every collected result independently backtraced
against the shared History (first conjunct), and it returns NoSolutionFound
exactly at frontier exhaustion with zero collected results (second
conjunct). -/
theorem c4_budgeted_loop_behavior {ν : Type} [DecidableEq ν]
    (cn : NodeImpl ν) (max_score : Int) (gs : ν → List (Successor ν))
    (df : ν → Int → Int) (ie : ν → Bool) :
    (∀ (fuel : Nat) (s : NodeList ν) (res : List (NodeDetails ν))
        (rs : List (ComputationResult ν)),
        search_all_loop cn max_score gs df ie fuel s res = .ok rs →
        rs ≠ [] ∧
        ∃ (s_f : NodeList ν) (res_more : List (NodeDetails ν)) (e : Error),
          get_next s_f = .error e ∧ e ≠ .Panicked ∧ res ++ res_more ≠ [] ∧
          make_results_multiple (res ++ res_more) s_f = some rs) ∧
    (∀ (fuel : Nat) (s : NodeList ν) (res : List (NodeDetails ν)),
        search_all_loop cn max_score gs df ie fuel s res =
          .error .NoSolutionFound →
        res = [] ∧
        ∃ (s_f : NodeList ν) (e : Error),
          get_next s_f = .error e ∧ e ≠ .Panicked) ∧
    (∀ (parent : NodeDetails ν) (l : List (Successor ν)),
        (build_successors_all cn max_score df ie parent l).2 =
          (l.filter (fun sc =>
            decide (parent.current_accrued_cost + sc.cost_to_move_here ≤
              max_score) && ie sc.node)).map
            (fun sc =>
              NodeDetails.new_with_parent cn sc.node
                (parent.current_accrued_cost + sc.cost_to_move_here) 0
                parent)) :=
  ⟨search_all_loop_ok_characterization cn max_score gs df ie,
    search_all_loop_nsf_characterization cn max_score gs df ie,
    fun parent l => build_successors_all_goals cn max_score df ie parent l⟩

/-- Witness for c4_budgeted_loop_behavior: a concrete successful budgeted
run discharging the hypothesis of the first conjunct. -/
theorem c4_budgeted_loop_behavior_witness :
    ([(⟨[0, 1], 1⟩ : ComputationResult Nat)]) ≠ [] :=
  ((c4_budgeted_loop_behavior cnNat 1 gs_up df_zero_nat ie_one_nat).1 5
    (NodeList.new cnNat 0) [] [⟨[0, 1], 1⟩] (by rfl)).1

/-- C4 counterexample: the sole successor of the start node satisfies the
goal predicate (ie_one_nat is by definition the test n == 1 and gs_up 0
produces node 1), yet with cost ceiling 0 its accrued cost 1 makes the
ceiling discard it before the goal test: no record is appended and the run
ends in NoSolutionFound, refuting the unconditioned appended-record clause
of the claim. -/
theorem c4_counterexample :
    ie_one_nat 1 = true ∧ gs_up 0 = [⟨1, 1⟩] ∧
    a_star_search_all_with_max_score cnNat 0 0 gs_up df_zero_nat ie_one_nat
      (some ⟨some 5⟩) = .error .NoSolutionFound :=
  ⟨rfl, rfl, by rfl⟩


/-- Membership after erasing a key. -/
theorem mem_mapErase {κ : Type} [DecidableEq κ] {α : Type} (k : κ)
    (m : List (κ × α)) (p : κ × α) :
    p ∈ mapErase k m → p ∈ m ∧ p.1 ≠ k := by
  induction m with
  | nil => intro h; simp [mapErase] at h
  | cons q rest ih =>
    obtain ⟨k', v⟩ := q
    intro h
    simp only [mapErase] at h
    by_cases hk : k' = k
    · rw [if_pos hk] at h
      obtain ⟨h1, h2⟩ := ih h
      exact ⟨List.mem_cons_of_mem _ h1, h2⟩
    · rw [if_neg hk] at h
      rcases List.mem_cons.mp h with h | h
      · subst h; exact ⟨List.mem_cons_self _ _, hk⟩
      · obtain ⟨h1, h2⟩ := ih h
        exact ⟨List.mem_cons_of_mem _ h1, h2⟩

/-- A key absent from a map stays absent after erasing another key. -/
theorem mapLookup_mapErase_none {κ : Type} [DecidableEq κ] {α : Type}
    (j k : κ) (m : List (κ × α)) (h : mapLookup j m = none) :
    mapLookup j (mapErase k m) = none := by
  induction m with
  | nil => simpa [mapErase] using h
  | cons q rest ih =>
    obtain ⟨k', v⟩ := q
    simp only [mapLookup] at h
    by_cases hj : k' = j
    · rw [if_pos hj] at h; exact Option.noConfusion h
    · rw [if_neg hj] at h
      simp only [mapErase]
      by_cases hk : k' = k
      · rw [if_pos hk]; exact ih h
      · rw [if_neg hk]
        simp only [mapLookup]
        rw [if_neg hj]
        exact ih h

/-- Looking up the just-inserted key. -/
theorem mapLookup_mapInsert_self {κ : Type} [DecidableEq κ] {α : Type}
    (k : κ) (v : α) (m : List (κ × α)) :
    mapLookup k (mapInsert k v m) = some v := by
  simp [mapInsert, mapLookup]

/-- Shape of a successful remove_candidate: the Frontier loses the key, the
History and the position table are untouched. -/
theorem remove_candidate_shape {ν : Type} [DecidableEq ν] (s : NodeList ν)
    (index : Nat) (x : NodeDetails ν) (s1 : NodeList ν)
    (h : remove_candidate s index = some (x, s1)) :
    mapLookup index s.candidate_nodes = some x ∧
    s1.candidate_nodes = mapErase index s.candidate_nodes ∧
    s1.node_history = s.node_history ∧
    s1.position_hash_to_min_accrued_cost =
      s.position_hash_to_min_accrued_cost := by
  unfold remove_candidate at h
  cases hl : mapLookup index s.candidate_nodes with
  | none => simp only [hl] at h; exact Option.noConfusion h
  | some node =>
    simp only [hl] at h
    cases hc : costRemove node.sum_accrued_plus_estimated_cost index
        s.cost_indexing with
    | none => simp only [hc] at h; exact Option.noConfusion h
    | some ci =>
      simp only [hc] at h
      injection h with h2
      injection h2 with h3 h4
      subst h3
      subst h4
      exact ⟨rfl, rfl, rfl, rfl⟩

/-- Shape of a successful get_next: one key moves from Frontier to
History. -/
theorem get_next_ok_shape {ν : Type} [DecidableEq ν] (s : NodeList ν)
    (r : NodeDetails ν) (len : Nat) (s' : NodeList ν)
    (h : get_next s = .ok (r, len, s')) :
    ∃ (index : Nat) (node : NodeDetails ν),
      mapLookup index s.candidate_nodes = some node ∧
      s'.candidate_nodes = mapErase index s.candidate_nodes ∧
      s'.node_history = mapInsert index node s.node_history := by
  unfold get_next at h
  cases hh : s.cost_indexing.head? with
  | none => simp only [hh] at h; exact Except.noConfusion h
  | some cb =>
    obtain ⟨c, ids⟩ := cb
    simp only [hh] at h
    cases hi : ids.head? with
    | none => simp only [hi] at h; exact Except.noConfusion h
    | some index =>
      simp only [hi] at h
      cases hr : remove_candidate s index with
      | none => simp only [hr] at h; exact Except.noConfusion h
      | some v =>
        obtain ⟨node, s1⟩ := v
        simp only [hr] at h
        obtain ⟨hlk, hcand, hhist, hpos⟩ :=
          remove_candidate_shape s index node s1 hr
        simp only [mapLookup_mapInsert_self] at h
        injection h with h2
        injection h2 with hr2 hrest
        injection hrest with hlen hs
        refine ⟨index, node, hlk, ?_, ?_⟩
        · rw [← hs]; exact hcand
        · rw [← hs, hhist]

/-- C3 (amended): the Frontier-History disjointness holds after
construction, is preserved by every extraction, and is preserved by every
insertion whose identity key is not already bound in the History; it can be
broken only by a record whose identity key is already in History passing
the dominance checks (a reopening rediscovery), as the counterexample
shows. -/
theorem c3_disjointness_preservation {ν : Type} [DecidableEq ν]
    (cn : NodeImpl ν) :
    (∀ start : ν, frontier_history_disjoint (NodeList.new cn start)) ∧
    (∀ (s : NodeList ν) (r : NodeDetails ν) (len : Nat) (s' : NodeList ν),
        frontier_history_disjoint s → get_next s = .ok (r, len, s') →
        frontier_history_disjoint s') ∧
    (∀ (s : NodeList ν) (d : NodeDetails ν) (s' : NodeList ν),
        frontier_history_disjoint s →
        mapLookup
          (if cn.same = true then cn.posHash d.node else cn.nodeId d.node)
          s.node_history = none →
        try_insert_successor cn s d = some s' →
        frontier_history_disjoint s') := by
  refine ⟨?_, ?_, ?_⟩
  · intro start p hp
    simp [NodeList.new, insert_candidate, mapLookup]
  · intro s r len s' hd hget
    obtain ⟨index, node, hlk, hcand, hhist⟩ :=
      get_next_ok_shape s r len s' hget
    intro p hp
    rw [hcand] at hp
    obtain ⟨hmem, hne⟩ := mem_mapErase index s.candidate_nodes p hp
    rw [hhist]
    simp only [mapInsert, mapLookup]
    rw [if_neg (Ne.symm hne)]
    exact mapLookup_mapErase_none p.1 index s.node_history (hd p hmem)
  · intro s d s' hd hh hins
    by_cases hsame : cn.same = true
    · rw [if_pos hsame] at hh
      simp only [try_insert_successor, hsame, if_true, true_and] at hins
      split at hins
      · injection hins with h2; subst h2; exact hd
      · cases hc : mapLookup (cn.posHash d.node) s.candidate_nodes with
        | some existing =>
          simp only [hc] at hins
          split at hins
          · injection hins with h2; subst h2; exact hd
          · cases hr : remove_candidate s (cn.posHash d.node) with
            | none => simp only [hr] at hins; exact Option.noConfusion hins
            | some v =>
              obtain ⟨x, s1⟩ := v
              simp only [hr] at hins
              injection hins with h2
              subst h2
              obtain ⟨hlk, hcand, hhist, hpos⟩ :=
                remove_candidate_shape s _ x s1 hr
              intro p hp
              simp only [insert_candidate, Option.getD, mapInsert]
                at hp ⊢
              rw [hhist]
              rcases List.mem_cons.mp hp with hp | hp
              · subst hp; exact hh
              · obtain ⟨hmem, hne⟩ := mem_mapErase _ _ p hp
                rw [hcand] at hmem
                obtain ⟨hmem2, hne2⟩ := mem_mapErase _ _ p hmem
                exact hd p hmem2
        | none =>
          simp only [hc, hh] at hins
          injection hins with h2
          subst h2
          intro p hp
          simp only [insert_candidate, Option.getD, mapInsert] at hp ⊢
          rcases List.mem_cons.mp hp with hp | hp
          · subst hp; exact hh
          · obtain ⟨hmem, hne⟩ := mem_mapErase _ _ p hp
            exact hd p hmem
    · have hsame2 : cn.same = false := by
        cases h2 : cn.same
        · rfl
        · exact absurd h2 hsame
      rw [if_neg hsame] at hh
      simp only [try_insert_successor, hsame2] at hins
      simp only [Bool.false_eq_true, if_false, false_and] at hins
      split at hins
      · injection hins with h2; subst h2; exact hd
      · cases hc : mapLookup (cn.nodeId d.node) s.candidate_nodes with
        | some existing =>
          simp only [hc] at hins
          cases hr : remove_candidate s (cn.nodeId d.node) with
          | none => simp only [hr] at hins; exact Option.noConfusion hins
          | some v =>
            obtain ⟨x, s1⟩ := v
            simp only [hr] at hins
            injection hins with h2
            subst h2
            obtain ⟨hlk, hcand, hhist, hpos⟩ :=
              remove_candidate_shape s _ x s1 hr
            intro p hp
            simp only [insert_candidate, Option.getD, mapInsert] at hp ⊢
            rw [hhist]
            rcases List.mem_cons.mp hp with hp | hp
            · subst hp; exact hh
            · obtain ⟨hmem, hne⟩ := mem_mapErase _ _ p hp
              rw [hcand] at hmem
              obtain ⟨hmem2, hne2⟩ := mem_mapErase _ _ p hmem
              exact hd p hmem2
        | none =>
          simp only [hc] at hins
          injection hins with h2
          subst h2
          intro p hp
          simp only [insert_candidate, Option.getD, mapInsert] at hp ⊢
          rcases List.mem_cons.mp hp with hp | hp
          · subst hp; exact hh
          · obtain ⟨hmem, hne⟩ := mem_mapErase _ _ p hp
            exact hd p hmem

/-- Witness for c3_disjointness_preservation: the insertion part applied at
a concrete registry state. -/
theorem c3_disjointness_preservation_witness :
    frontier_history_disjoint
      (ins_state cnNat (NodeList.new cnNat 0) ⟨1, 5, 0, some 0⟩) :=
  (c3_disjointness_preservation cnNat).2.2 (NodeList.new cnNat 0)
    ⟨1, 5, 0, some 0⟩ _ (by decide) (by rfl) (by rfl)

/-- C3 counterexample: in the reachable registry state c3s the identity key
1 is bound in the Frontier and in the History simultaneously - the
rediscovery of node 1 at accrued cost 2 beats the History record of cost 10
and is inserted into the Frontier while the History entry stays. -/
theorem c3_counterexample :
    (mapLookup 1 c3s.candidate_nodes).isSome = true ∧
    (mapLookup 1 c3s.node_history).isSome = true := by decide


/-- A successful lookup is a membership. -/
theorem mapLookup_some_mem {κ : Type} [DecidableEq κ] {α : Type} (k : κ)
    (m : List (κ × α)) (v : α) :
    mapLookup k m = some v → (k, v) ∈ m := by
  induction m with
  | nil => intro h; exact Option.noConfusion h
  | cons q rest ih =>
    obtain ⟨k2, w⟩ := q
    intro h
    simp only [mapLookup] at h
    by_cases hk : k2 = k
    · rw [if_pos hk] at h
      injection h with h2
      subst hk
      subst h2
      exact List.mem_cons_self _ _
    · rw [if_neg hk] at h
      exact List.mem_cons_of_mem _ (ih h)

/-- C2 (amended): when identity and position keys coincide, offering a
record that is dominated (same identity key, accrued cost less than or
equal) by an existing Frontier or History record of a well-formed registry
state is a no-op: the registry is returned unchanged.  When the keys
differ, the claim fails (see the counterexample): the History is never
consulted for the identity key, and an equal-cost record sharing the
identity key replaces the Frontier record. -/
theorem c2_dominated_insert_noop (cn : NodeImpl ν) (s : NodeList ν)
    (d : NodeDetails ν) (hsame : cn.same = true)
    (hco : ∀ x, cn.nodeId x = cn.posHash x) (hkeys : keys_match cn s)
    (hpos : pos_min_ok cn s)
    (hdom :
      (∃ e, mapLookup (cn.nodeId d.node) s.candidate_nodes = some e ∧
        e.current_accrued_cost ≤ d.current_accrued_cost) ∨
      (∃ e, mapLookup (cn.nodeId d.node) s.node_history = some e ∧
        e.current_accrued_cost ≤ d.current_accrued_cost)) :
    try_insert_successor cn s d = some s := by
  have key : ∃ v, mapLookup (cn.posHash d.node)
      s.position_hash_to_min_accrued_cost = some v ∧
      v ≤ d.current_accrued_cost := by
    rcases hdom with ⟨e, hlk, hle⟩ | ⟨e, hlk, hle⟩
    · have hmem := mapLookup_some_mem _ _ _ hlk
      have hkey := hkeys.1 _ hmem
      have hposd := hpos.1 _ hmem
      simp only [le_posmap] at hposd
      cases hv : mapLookup (cn.posHash e.node)
          s.position_hash_to_min_accrued_cost with
      | none => rw [hv] at hposd; exact Bool.noConfusion hposd
      | some v =>
        rw [hv] at hposd
        have hvle := of_decide_eq_true hposd
        have heq : cn.posHash e.node = cn.posHash d.node := by
          rw [← hco e.node, ← hco d.node]
          exact hkey.symm
        rw [heq] at hv
        exact ⟨v, hv, le_trans hvle hle⟩
    · have hmem := mapLookup_some_mem _ _ _ hlk
      have hkey := hkeys.2 _ hmem
      have hposd := hpos.2 _ hmem
      simp only [le_posmap] at hposd
      cases hv : mapLookup (cn.posHash e.node)
          s.position_hash_to_min_accrued_cost with
      | none => rw [hv] at hposd; exact Bool.noConfusion hposd
      | some v =>
        rw [hv] at hposd
        have hvle := of_decide_eq_true hposd
        have heq : cn.posHash e.node = cn.posHash d.node := by
          rw [← hco e.node, ← hco d.node]
          exact hkey.symm
        rw [heq] at hv
        exact ⟨v, hv, le_trans hvle hle⟩
  obtain ⟨v, hv, hvle⟩ := key
  simp only [try_insert_successor, hsame, if_true, hv]
  rw [if_pos (decide_eq_true hvle)]

/-- Witness for c2_dominated_insert_noop at a concrete registry state. -/
theorem c2_dominated_insert_noop_witness :
    try_insert_successor cnNat c2w ⟨1, 7, 3, some 0⟩ = some c2w :=
  c2_dominated_insert_noop cnNat c2w ⟨1, 7, 3, some 0⟩ rfl (fun _ => rfl)
    (by decide) (by decide) (Or.inl ⟨⟨1, 5, 0, some 0⟩, by decide, by decide⟩)

/-- C2 counterexample: in the reachable state c2s the Frontier record of
identity key 13 has accrued cost 2, equal to the accrued cost of the
offered record c2r with the same identity key, yet the call is not a no-op:
with distinct identity and position keys (cnC2) the equal-cost record
replaces the Frontier record (its parent key changes from 0 to 41). -/
theorem c2_counterexample :
    mapLookup 13 c2s.candidate_nodes = some ⟨13, 2, 10, some 0⟩ ∧
    (⟨13, 2, 10, some 0⟩ : NodeDetails Nat).current_accrued_cost ≤
      c2r.current_accrued_cost ∧
    try_insert_successor cnC2 c2s c2r ≠ some c2s := by decide


/-- C5 (amended): on a well-formed registry state, get_next extracts
exactly one Frontier record per call - the record with the smallest
f = g + h, breaking f-ties by the least identity key of the minimal-cost
bucket (not by the node's natural order, see the counterexample) - moves it
into History, and fails with NoSolutionFound exactly when the Frontier is
empty. -/
theorem c5_extract_min {ν : Type} [DecidableEq ν] (s : NodeList ν)
    (hwf : registry_wf s) :
    (s.candidate_nodes = [] → get_next s = .error .NoSolutionFound) ∧
    (s.candidate_nodes ≠ [] →
      ∃ r len s', get_next s = .ok (r, len, s')) ∧
    (∀ (r : NodeDetails ν) (len : Nat) (s' : NodeList ν),
      get_next s = .ok (r, len, s') →
      ∃ index, mapLookup index s.candidate_nodes = some r ∧
        s'.candidate_nodes = mapErase index s.candidate_nodes ∧
        s'.node_history = mapInsert index r s.node_history ∧
        ∀ p ∈ s.candidate_nodes,
          r.sum_accrued_plus_estimated_cost <
              p.2.sum_accrued_plus_estimated_cost ∨
            (r.sum_accrued_plus_estimated_cost =
                p.2.sum_accrued_plus_estimated_cost ∧ index ≤ p.1)) := by
  obtain ⟨hsorted, hbuckets, hcomplete, hcovers⟩ := hwf
  cases hci : s.cost_indexing with
  | nil =>
    refine ⟨fun _ => ?_, fun hne => ?_, fun r len s' hok => ?_⟩
    · unfold get_next
      rw [hci]
      rfl
    · exfalso
      cases hcand : s.candidate_nodes with
      | nil => exact hne hcand
      | cons p rest =>
        have hc := hcovers p (by rw [hcand]; exact List.mem_cons_self _ _)
        rw [hci] at hc
        simp [mapLookup] at hc
    · exfalso
      unfold get_next at hok
      rw [hci] at hok
      exact Except.noConfusion hok
  | cons b restIdx =>
    obtain ⟨c0, ids0⟩ := b
    rw [hci] at hsorted
    have hb0 : (c0, ids0) ∈ s.cost_indexing := by
      rw [hci]; exact List.mem_cons_self _ _
    obtain ⟨hne0, hpair0⟩ := hbuckets _ hb0
    rcases ids0 with _ | ⟨index0, restIds⟩
    · exact absurd rfl hne0
    · have hcompl0 := hcomplete _ hb0 index0 (List.mem_cons_self _ _)
      cases hr0 : mapLookup index0 s.candidate_nodes with
      | none => rw [hr0] at hcompl0; exact absurd hcompl0 (by simp)
      | some r0 =>
        rw [hr0] at hcompl0
        simp only [Option.map_some] at hcompl0
        injection hcompl0 with hf0
        have hget : get_next s =
            .ok (r0, (mapErase index0 s.candidate_nodes).length,
              { candidate_nodes := mapErase index0 s.candidate_nodes
                node_history := mapInsert index0 r0 s.node_history
                cost_indexing :=
                  if (index0 :: restIds).filter (fun j => j ≠ index0) = []
                  then restIdx
                  else (c0,
                    (index0 :: restIds).filter (fun j => j ≠ index0)) ::
                    restIdx
                position_hash_to_min_accrued_cost :=
                  s.position_hash_to_min_accrued_cost }) := by
          unfold get_next remove_candidate
          rw [hci]
          simp only [List.head?_cons]
          rw [hr0]
          simp only [hf0, costRemove, if_pos rfl, if_true,
            mapLookup_mapInsert_self]
        refine ⟨fun hcand => ?_, fun hne => ⟨_, _, _, hget⟩,
          fun r len s' hok => ?_⟩
        · exfalso
          rw [hcand] at hr0
          simp [mapLookup] at hr0
        · rw [hget] at hok
          injection hok with h2
          injection h2 with hr2 hrest
          injection hrest with hlen hs
          subst hr2
          subst hs
          refine ⟨index0, hr0, rfl, rfl, ?_⟩
          intro p hp
          have hcov := hcovers p hp
          rw [hci] at hcov
          simp only [mapLookup] at hcov
          by_cases hc : c0 = p.2.sum_accrued_plus_estimated_cost
          · rw [if_pos hc] at hcov
            simp only [Option.getD] at hcov
            rcases List.mem_cons.mp hcov with hcov | hcov
            · exact Or.inr ⟨hf0.trans hc, hcov ▸ le_refl _⟩
            · exact Or.inr ⟨hf0.trans hc,
                le_of_lt ((List.pairwise_cons.mp hpair0).1 _ hcov)⟩
          · rw [if_neg hc] at hcov
            cases hlk : mapLookup p.2.sum_accrued_plus_estimated_cost
                restIdx with
            | none => rw [hlk] at hcov; simp at hcov
            | some ids2 =>
              rw [hlk] at hcov
              have hmem2 := mapLookup_some_mem _ _ _ hlk
              have hlt := (List.pairwise_cons.mp hsorted).1 _ hmem2
              refine Or.inl ?_
              have hf0' : r0.sum_accrued_plus_estimated_cost = c0 := hf0
              rw [hf0']
              exact hlt

/-- Witness for c5_extract_min: the empty-Frontier conjunct applied at a
concrete well-formed state. -/
theorem c5_extract_min_witness :
    get_next (next_state c2w) = .error .NoSolutionFound :=
  (c5_extract_min (next_state c2w) (by decide)).1 (by decide)

/-- C5 counterexample: in the reachable state c5s the Frontier holds the
records of node 5 (identity key 95) and node 7 (identity key 93) with equal
f = 3; get_next returns the record of node 7 - the least identity key in
the minimal-cost bucket - although node 5 is the smaller node in the
natural order, refuting the claimed tie-break by node order. -/
theorem c5_counterexample :
    mapLookup 95 c5s.candidate_nodes = some ⟨5, 1, 2, some 50⟩ ∧
    mapLookup 93 c5s.candidate_nodes = some ⟨7, 1, 2, some 50⟩ ∧
    NodeDetails.sum_accrued_plus_estimated_cost
      (⟨5, 1, 2, some 50⟩ : NodeDetails Nat) =
      NodeDetails.sum_accrued_plus_estimated_cost
      (⟨7, 1, 2, some 50⟩ : NodeDetails Nat) ∧
    (5 : Nat) < 7 ∧
    next_record c5s = some ⟨7, 1, 2, some 50⟩ := by decide


/-- Erasing an absent key leaves the map unchanged. -/
theorem mapErase_of_lookup_none {κ : Type} [DecidableEq κ] {α : Type}
    (k : κ) (m : List (κ × α)) (h : mapLookup k m = none) :
    mapErase k m = m := by
  induction m with
  | nil => rfl
  | cons q rest ih =>
    obtain ⟨k2, v⟩ := q
    simp only [mapLookup] at h
    by_cases hk : k2 = k
    · rw [if_pos hk] at h; exact Option.noConfusion h
    · rw [if_neg hk] at h
      simp only [mapErase, if_neg hk]
      rw [ih h]

/-- Nodes beyond k are absent from the position table after k
expansions. -/
theorem linePos_lookup_none : ∀ (k m : Nat), k < m →
    mapLookup m (linePos k) = none := by
  intro k
  induction k with
  | zero =>
    intro m hm
    simp only [linePos, mapLookup]
    rw [if_neg (by omega)]
  | succ j ih =>
    intro m hm
    simp only [linePos, mapLookup]
    rw [if_neg (by omega)]
    exact ih m (by omega)

/-- Nodes from k on are absent from the History after k expansions. -/
theorem lineHist_lookup_none : ∀ (k m : Nat), k ≤ m →
    mapLookup m (lineHist k) = none := by
  intro k
  induction k with
  | zero => intro m hm; rfl
  | succ j ih =>
    intro m hm
    simp only [lineHist, mapLookup]
    rw [if_neg (by omega)]
    exact ih m (by omega)

/-- One extraction on the infinite-line state pops node k. -/
theorem line_get_next (k : Nat) :
    get_next (lineState k) =
      .ok (lineRec k, 0, ⟨[], lineHist (k + 1), [], linePos k⟩) := by
  have h1 : mapLookup k [(k, lineRec k)] = some (lineRec k) := by
    simp [mapLookup]
  have h2 : (lineRec k).sum_accrued_plus_estimated_cost = (k : Int) := by
    simp [lineRec, NodeDetails.sum_accrued_plus_estimated_cost]
  have h3 : costRemove (k : Int) k [((k : Int), [k])] = some [] := by
    simp [costRemove]
  have h4 : mapErase k [(k, lineRec k)] =
      ([] : List (Nat × NodeDetails Nat)) := by
    simp [mapErase]
  have h5 : mapInsert k (lineRec k) (lineHist k) = lineHist (k + 1) := by
    simp only [mapInsert,
      mapErase_of_lookup_none _ _ (lineHist_lookup_none k k le_rfl)]
    rfl
  have h6 : mapLookup k (lineHist (k + 1)) = some (lineRec k) := by
    simp [lineHist, mapLookup]
  unfold get_next remove_candidate
  simp only [lineState, List.head?_cons, h1, h2, h3, h4, h5, h6,
    mapLookup_mapInsert_self, List.length_nil]

/-- The expansion of node k produces the single candidate k + 1. -/
theorem line_build (k : Nat) :
    build_successors cnNat df_zero_nat ie_false_nat (lineRec k)
      (gs_up (lineRec k).node) =
      .ok [⟨k + 1, (k : Int) + 1, 0, some k⟩] := by
  rfl

/-- Inserting the candidate k + 1 yields the line state after k + 1
expansions. -/
theorem line_insert (k : Nat) :
    try_insert_successor cnNat
      (⟨[], lineHist (k + 1), [], linePos k⟩ : NodeList Nat)
      ⟨k + 1, (k : Int) + 1, 0, some k⟩ = some (lineState (k + 1)) := by
  have hp : mapLookup (k + 1) (linePos k) = none :=
    linePos_lookup_none k (k + 1) (by omega)
  have hh : mapLookup (k + 1) (lineHist (k + 1)) = none :=
    lineHist_lookup_none (k + 1) (k + 1) le_rfl
  simp only [try_insert_successor, insert_candidate]
  simp only [cnNat, id]
  simp only [hp, hh]
  simp only [Bool.false_eq_true, if_false, if_true, Option.getD, mapLookup,
    true_and]
  have hh2 : mapLookup (k + 1) (lineHist k) = none :=
    lineHist_lookup_none k (k + 1) (by omega)
  simp [lineState, lineRec, linePos, mapInsert, mapErase,
    mapErase_of_lookup_none _ _ hp, costInsert,
    NodeDetails.sum_accrued_plus_estimated_cost, lineHist, hp, hh2]

/-- The infinite-line search always runs out of fuel: on lineState k the
loop recurses to lineState (k + 1) forever (no goal, never-empty
frontier). -/
theorem line_loop : ∀ (fuel k : Nat),
    search_loop cnNat gs_up df_zero_nat ie_false_nat fuel (lineState k) =
      .error .IterLimitExceeded := by
  intro fuel
  induction fuel with
  | zero => intro k; rfl
  | succ f ih =>
    intro k
    simp only [search_loop, line_get_next, line_build]
    simp only [insert_all, line_insert]
    exact ih (k + 1)

/-- The start state of the infinite-line search. -/
theorem line_new : NodeList.new cnNat (0 : Nat) = lineState 0 := by decide

/-- The step count never exceeds the fuel. -/
theorem search_loop_steps_le (cn : NodeImpl ν)
    (gs : ν → List (Successor ν)) (df : ν → Int → Int) (ie : ν → Bool) :
    ∀ (fuel : Nat) (s : NodeList ν),
      (search_loop_steps cn gs df ie fuel s).1 ≤ fuel := by
  intro fuel
  induction fuel with
  | zero => intro s; exact le_rfl
  | succ f ih =>
    intro s
    simp only [search_loop_steps]
    cases hget : get_next s with
    | error e => simp [hget]
    | ok v =>
      obtain ⟨parent, len, nl⟩ := v
      simp only [hget]
      cases hbs : build_successors cn df ie parent (gs parent.node) with
      | error ed =>
        simp only [hbs]
        cases hm : make_results ed nl <;> simp [hm]
      | ok succs =>
        simp only [hbs]
        cases hins : insert_all cn succs nl with
        | none => simp [hins]
        | some nl2 =>
          simp only [hins]
          have := ih nl2
          omega

/-- The instrumented loop computes the same outcome as the plain loop. -/
theorem search_loop_steps_eq (cn : NodeImpl ν)
    (gs : ν → List (Successor ν)) (df : ν → Int → Int) (ie : ν → Bool) :
    ∀ (fuel : Nat) (s : NodeList ν),
      (search_loop_steps cn gs df ie fuel s).2 =
        search_loop cn gs df ie fuel s := by
  intro fuel
  induction fuel with
  | zero => intro s; rfl
  | succ f ih =>
    intro s
    simp only [search_loop_steps, search_loop]
    cases hget : get_next s with
    | error e => simp [hget]
    | ok v =>
      obtain ⟨parent, len, nl⟩ := v
      simp only [hget]
      cases hbs : build_successors cn df ie parent (gs parent.node) with
      | error ed =>
        simp only [hbs]
        cases hm : make_results ed nl <;> simp [hm]
      | ok succs =>
        simp only [hbs]
        cases hins : insert_all cn succs nl with
        | none => simp [hins]
        | some nl2 =>
          simp only [hins]
          exact ih nl2

/-- C9: with iteration limit n the single-goal search performs at most n
expansion steps on every input (the loop body runs at most n - 1 times) -
and on an infinite graph with no goal (successors n + 1 from start 0 with a
predicate that never accepts) it terminates with IterLimitExceeded for
every finite limit. -/
theorem c9_iteration_limit_bound {ν : Type} [DecidableEq ν] :
    (∀ (cn : NodeImpl ν) (gs : ν → List (Successor ν))
        (df : ν → Int → Int) (ie : ν → Bool) (start : ν) (n : Nat),
        a_star_search cn start gs df ie (some ⟨some n⟩) =
          (search_loop_steps cn gs df ie (n - 1)
            (NodeList.new cn start)).2 ∧
        (search_loop_steps cn gs df ie (n - 1)
          (NodeList.new cn start)).1 ≤ n) ∧
    (∀ n : Nat,
        a_star_search cnNat 0 gs_up df_zero_nat ie_false_nat
          (some ⟨some n⟩) = .error .IterLimitExceeded) := by
  constructor
  · intro cn gs df ie start n
    constructor
    · exact (search_loop_steps_eq cn gs df ie (n - 1)
        (NodeList.new cn start)).symm
    · have := search_loop_steps_le cn gs df ie (n - 1)
        (NodeList.new cn start)
      omega
  · intro n
    show search_loop cnNat gs_up df_zero_nat ie_false_nat (n - 1)
      (NodeList.new cnNat 0) = .error .IterLimitExceeded
    rw [line_new]
    exact line_loop (n - 1) 0



end AStar

namespace OldAStar

/-- C1 counterexample: on the gsC1 graph the sequential search returns the
path 0, 1, 3, 6 of accrued cost 3, while parallel expansion with two
workers returns the path 0, 2, 4, 6 of accrued cost 102 - a strictly
greater cost: the batch of two expands the trap branch and a worker reaches
the goal through it before the cheap path is ever expanded. -/
theorem c1_counterexample :
    a_star_search false 0 (0 : Int) 6 gsC1 dfC1 10 =
      some (.ok ([0, 1, 3, 6], 3)) ∧
    a_star_search true 2 (0 : Int) 6 gsC1 dfC1 10 =
      some (.ok ([0, 2, 4, 6], 102)) ∧
    (3 : Int) < 102 :=
  ⟨by rfl, by rfl, by decide⟩

end OldAStar


namespace OldAStar

variable {ν : Type} [DecidableEq ν] [LinearOrder ν]

/-- sorting_function never puts an entry below itself. -/
theorem entryLt_irrefl (a : ν × NodeDetails ν) : ¬ entryLt a a := by
  unfold entryLt
  simp

/-- sorting_function is transitive. -/
theorem entryLt_trans {a b c : ν × NodeDetails ν} (h1 : entryLt a b)
    (h2 : entryLt b c) : entryLt a c := by
  rcases h1 with h1 | ⟨he1, hn1⟩ <;> rcases h2 with h2 | ⟨he2, hn2⟩
  · exact Or.inl (lt_trans h1 h2)
  · exact Or.inl (he2 ▸ h1)
  · exact Or.inl (he1 ▸ h2)
  · exact Or.inr ⟨he1.trans he2, lt_trans hn1 hn2⟩

/-- sorting_function is asymmetric. -/
theorem entryLt_asymm {a b : ν × NodeDetails ν} (h : entryLt a b) :
    ¬ entryLt b a :=
  fun h2 => entryLt_irrefl a (entryLt_trans h h2)

/-- The fold of min_by: starting from a candidate, the result is the
candidate or a list element, it does not exceed the candidate, and no
visited element sorts strictly below it. -/
theorem minEntry_fold :
    ∀ (l : List (ν × NodeDetails ν)) (a m : ν × NodeDetails ν),
      l.foldl
        (fun acc x =>
          match acc with
          | none => some x
          | some v => if entryLt x v then some x else some v)
        (some a) = some m →
      (m = a ∨ m ∈ l) ∧ (m = a ∨ entryLt m a) ∧ ∀ y ∈ l, ¬ entryLt y m := by
  intro l
  induction l with
  | nil =>
    intro a m h
    simp only [List.foldl_nil] at h
    injection h with h2
    subst h2
    exact ⟨Or.inl rfl, Or.inl rfl, by simp⟩
  | cons x rest ih =>
    intro a m h
    simp only [List.foldl_cons] at h
    by_cases hx : entryLt x a
    · rw [if_pos hx] at h
      obtain ⟨hmem, hle, hmin⟩ := ih x m h
      refine ⟨?_, ?_, ?_⟩
      · rcases hmem with rfl | hmem
        · exact Or.inr (List.mem_cons_self _ _)
        · exact Or.inr (List.mem_cons_of_mem _ hmem)
      · rcases hle with rfl | hle
        · exact Or.inr hx
        · exact Or.inr (entryLt_trans hle hx)
      · intro y hy
        rcases List.mem_cons.mp hy with rfl | hy
        · rcases hle with rfl | hle
          · exact entryLt_irrefl m
          · exact fun hc => entryLt_irrefl m (entryLt_trans hle hc)
        · exact hmin y hy
    · rw [if_neg hx] at h
      obtain ⟨hmem, hle, hmin⟩ := ih a m h
      refine ⟨?_, hle, ?_⟩
      · rcases hmem with rfl | hmem
        · exact Or.inl rfl
        · exact Or.inr (List.mem_cons_of_mem _ hmem)
      · intro y hy
        rcases List.mem_cons.mp hy with rfl | hy
        · intro hc
          rcases hle with rfl | hle
          · exact hx hc
          · exact hx (entryLt_trans hc hle)
        · exact hmin y hy

/-- min_by on a nonempty list returns a minimum. -/
theorem minEntry_spec (l : List (ν × NodeDetails ν))
    (m : ν × NodeDetails ν) (h : minEntry l = some m) :
    m ∈ l ∧ ∀ y ∈ l, ¬ entryLt y m := by
  cases l with
  | nil => exact Option.noConfusion h
  | cons x rest =>
    unfold minEntry at h
    simp only [List.foldl_cons] at h
    obtain ⟨hmem, hle, hmin⟩ := minEntry_fold rest x m h
    refine ⟨?_, ?_⟩
    · rcases hmem with h2 | h2
      · rw [h2]; exact List.mem_cons_self _ _
      · exact List.mem_cons_of_mem _ h2
    · intro y hy
      rcases List.mem_cons.mp hy with h2 | h2
      · subst h2
        rcases hle with h3 | h3
        · rw [h3]; exact entryLt_irrefl _
        · exact entryLt_asymm h3
      · exact hmin y h2

/-- min_by on a nonempty list does not fail. -/
theorem minEntry_ne_none (l : List (ν × NodeDetails ν)) (hne : l ≠ []) :
    minEntry l ≠ none := by
  cases l with
  | nil => exact absurd rfl hne
  | cons x rest =>
    unfold minEntry
    simp only [List.foldl_cons]
    intro h
    have : ∀ (r : List (ν × NodeDetails ν)) (a : ν × NodeDetails ν),
        r.foldl
          (fun acc x =>
            match acc with
            | none => some x
            | some v => if entryLt x v then some x else some v)
          (some a) ≠ none := by
      intro r
      induction r with
      | nil => intro a; simp
      | cons z zs ih =>
        intro a
        simp only [List.foldl_cons]
        by_cases hz : entryLt z a
        · rw [if_pos hz]; exact ih z
        · rw [if_neg hz]; exact ih a
    exact this rest x h

/-- Membership is preserved by sorted insertion. -/
theorem mem_insertSorted (x y : ν × NodeDetails ν) :
    ∀ l : List (ν × NodeDetails ν),
      (y ∈ insertSorted x l ↔ y = x ∨ y ∈ l) := by
  intro l
  induction l with
  | nil => simp [insertSorted]
  | cons z rest ih =>
    simp only [insertSorted]
    by_cases hz : entryLt x z
    · rw [if_pos hz]
      simp only [List.mem_cons]
    · rw [if_neg hz]
      simp only [List.mem_cons, ih]
      tauto

/-- Membership is preserved by sorting. -/
theorem mem_sortEntries (y : ν × NodeDetails ν) :
    ∀ l : List (ν × NodeDetails ν), (y ∈ sortEntries l ↔ y ∈ l) := by
  intro l
  induction l with
  | nil => simp [sortEntries]
  | cons z rest ih =>
    simp only [sortEntries, List.foldr_cons]
    rw [mem_insertSorted]
    simp only [List.mem_cons]
    constructor
    · rintro (rfl | hy)
      · exact Or.inl rfl
      · exact Or.inr ((ih.mp ∘ id) (by simpa [sortEntries] using hy))
    · rintro (rfl | hy)
      · exact Or.inl rfl
      · exact Or.inr (by simpa [sortEntries] using ih.mpr hy)

/-- Sorted insertion preserves the sortedness invariant (no later element
sorts strictly below an earlier one). -/
theorem insertSorted_pairwise (x : ν × NodeDetails ν) :
    ∀ l : List (ν × NodeDetails ν),
      List.Pairwise (fun a b => ¬ entryLt b a) l →
      List.Pairwise (fun a b => ¬ entryLt b a) (insertSorted x l) := by
  intro l
  induction l with
  | nil => intro _; simp [insertSorted]
  | cons z rest ih =>
    intro hp
    obtain ⟨hz, hrest⟩ := List.pairwise_cons.mp hp
    simp only [insertSorted]
    by_cases hx : entryLt x z
    · rw [if_pos hx]
      refine List.pairwise_cons.mpr ⟨?_, hp⟩
      intro y hy
      rcases List.mem_cons.mp hy with rfl | hy
      · exact entryLt_asymm hx
      · intro hc
        exact hz y hy (entryLt_trans hc hx)
    · rw [if_neg hx]
      refine List.pairwise_cons.mpr ⟨?_, ih hrest⟩
      intro y hy
      rcases (mem_insertSorted x y rest).mp hy with rfl | hy
      · exact hx
      · exact hz y hy

/-- The sorted list satisfies the sortedness invariant. -/
theorem sortEntries_pairwise (l : List (ν × NodeDetails ν)) :
    List.Pairwise (fun a b => ¬ entryLt b a) (sortEntries l) := by
  induction l with
  | nil => simp [sortEntries]
  | cons z rest ih =>
    simp only [sortEntries, List.foldr_cons]
    exact insertSorted_pairwise z _ ih

/-- The head of the sorted list is a minimum of the original list. -/
theorem sortEntries_head_min (l : List (ν × NodeDetails ν))
    (m : ν × NodeDetails ν) (rest : List (ν × NodeDetails ν))
    (h : sortEntries l = m :: rest) : m ∈ l ∧ ∀ y ∈ l, ¬ entryLt y m := by
  constructor
  · exact (mem_sortEntries m l).mp (h ▸ List.mem_cons_self _ _)
  · intro y hy
    have hy2 : y ∈ m :: rest := h ▸ (mem_sortEntries y l).mpr hy
    rcases List.mem_cons.mp hy2 with rfl | hy2
    · exact entryLt_irrefl y
    · have hp := sortEntries_pairwise l
      rw [h] at hp
      exact (List.pairwise_cons.mp hp).1 y hy2

/-- Two entries of a key-distinct list that share a key are equal. -/
theorem key_unique {α : Type} {l : List (ν × α)}
    (hnd : (l.map Prod.fst).Nodup) {p q : ν × α} (hp : p ∈ l) (hq : q ∈ l)
    (hk : p.1 = q.1) : p = q := by
  induction l with
  | nil => exact absurd hp (List.not_mem_nil p)
  | cons z rest ih =>
    simp only [List.map_cons, List.nodup_cons] at hnd
    rcases List.mem_cons.mp hp with rfl | hp2 <;>
      rcases List.mem_cons.mp hq with rfl | hq2
    · rfl
    · exact absurd (hk ▸ List.mem_map_of_mem Prod.fst hq2) hnd.1
    · exact absurd (hk ▸ List.mem_map_of_mem Prod.fst hp2) hnd.1
    · exact ih hnd.2 hp2 hq2

/-- Two minima of a key-distinct list coincide. -/
theorem min_unique {l : List (ν × NodeDetails ν)}
    (hnd : (l.map Prod.fst).Nodup) {m1 m2 : ν × NodeDetails ν}
    (h1 : m1 ∈ l) (h2 : m2 ∈ l) (hm1 : ∀ y ∈ l, ¬ entryLt y m1)
    (hm2 : ∀ y ∈ l, ¬ entryLt y m2) : m1 = m2 := by
  have ha := hm1 m2 h2
  have hb := hm2 m1 h1
  unfold entryLt at ha hb
  push_neg at ha hb
  have hf : m1.2.f = m2.2.f := le_antisymm ha.1 hb.1
  have hk : m1.1 = m2.1 := le_antisymm (ha.2 hf.symm) (hb.2 hf)
  exact key_unique hnd h1 h2 hk

end OldAStar

namespace OldAStar

variable {ν : Type} [DecidableEq ν] [LinearOrder ν]

/-- Erasing a key yields a sublist. -/
theorem mapErase_sublist {κ : Type} [DecidableEq κ] {α : Type} (k : κ) :
    ∀ m : List (κ × α), List.Sublist (AStar.mapErase k m) m := by
  intro m
  induction m with
  | nil => exact List.Sublist.refl _
  | cons q rest ih =>
    obtain ⟨k2, v⟩ := q
    simp only [AStar.mapErase]
    by_cases hk : k2 = k
    · rw [if_pos hk]
      exact List.Sublist.cons _ ih
    · rw [if_neg hk]
      exact List.Sublist.cons₂ _ ih

/-- Key distinctness survives erasing a key. -/
theorem nodup_keys_mapErase {κ : Type} [DecidableEq κ] {α : Type} (k : κ)
    (m : List (κ × α)) (h : (m.map Prod.fst).Nodup) :
    ((AStar.mapErase k m).map Prod.fst).Nodup :=
  h.sublist ((mapErase_sublist k m).map Prod.fst)

/-- Key distinctness survives inserting a binding. -/
theorem nodup_keys_mapInsert {κ : Type} [DecidableEq κ] {α : Type} (k : κ)
    (v : α) (m : List (κ × α)) (h : (m.map Prod.fst).Nodup) :
    ((AStar.mapInsert k v m).map Prod.fst).Nodup := by
  simp only [AStar.mapInsert, List.map_cons, List.nodup_cons]
  refine ⟨?_, nodup_keys_mapErase k m h⟩
  intro hk
  obtain ⟨p, hp, hpk⟩ := List.mem_map.mp hk
  exact (AStar.mem_mapErase k m p hp).2 hpk

/-- Key distinctness of the open list survives the merge phase. -/
theorem nodup_keys_merge :
    ∀ (l c o : List (ν × NodeDetails ν)),
      (o.map Prod.fst).Nodup →
      ((merge_successors l c o).map Prod.fst).Nodup := by
  intro l
  induction l with
  | nil => intro c o h; exact h
  | cons q rest ih =>
    intro c o h
    obtain ⟨s, d⟩ := q
    simp only [merge_successors]
    split
    · exact ih c o h
    · exact ih c _ (nodup_keys_mapInsert s d o h)

/-- The parallel branch with a single worker runs the identical
computation as sequential mode: each step pops the same unique minimum
(head of the sorted frontier on one side, min_by on the other) and
processes it through the same singleton-batch code path. -/
theorem old_loop_par1_eq_seq (gs : ν → List (AStar.Successor ν))
    (df : ν → Int → Int) (end_node : ν) (threads : Nat) :
    ∀ (fuel : Nat) (o c : List (ν × NodeDetails ν)),
      (o.map Prod.fst).Nodup →
      old_loop true 1 gs df end_node fuel o c =
        old_loop false threads gs df end_node fuel o c := by
  intro fuel
  induction fuel with
  | zero => intro o c _; rfl
  | succ f ih =>
    intro o c hnd
    by_cases ho : o = []
    · simp [old_loop, ho]
    · cases hs : sortEntries o with
      | nil =>
        exfalso
        cases o with
        | nil => exact ho rfl
        | cons x rest2 =>
          have := (mem_sortEntries x (x :: rest2)).mpr
            (List.mem_cons_self _ _)
          rw [hs] at this
          exact List.not_mem_nil x this
      | cons m rest =>
        cases hmin : minEntry o with
        | none => exact absurd hmin (minEntry_ne_none o ho)
        | some m2 =>
          have hm1 := sortEntries_head_min o m rest hs
          have hm2 := minEntry_spec o m2 hmin
          have hmm : m2 = m := min_unique hnd hm2.1 hm1.1 hm2.2 hm1.2
          subst hmm
          obtain ⟨q, d⟩ := m2
          simp only [old_loop, if_neg ho, hs, hmin, List.take_succ_cons,
            List.take_zero, if_true, Bool.false_eq_true, if_false]
          rcases hrun : run_get_successors gs df end_node q d with
            ⟨succs, done⟩
          simp only [remove_batch, hrun]
          cases done with
          | some t => rfl
          | none =>
            exact ih
              (merge_successors succs c (AStar.mapErase q o))
              (extend_closed c [(q, d)])
              (nodup_keys_merge succs c _ (nodup_keys_mapErase q o hnd))

/-- C1 (amended): parallel expansion with a single worker returns exactly
the sequential result - in particular a path of equal total accrued cost -
on every input and every fuel; with two or more workers the parallel mode
can return a path of strictly greater cost (see the counterexample), so
cost equivalence between the modes does not hold in general. -/
theorem c1_parallel_single_worker_eq_sequential (start end_node : ν)
    (gs : ν → List (AStar.Successor ν)) (df : ν → Int → Int)
    (threads : Nat) (fuel : Nat) :
    a_star_search true 1 start end_node gs df fuel =
      a_star_search false threads start end_node gs df fuel :=
  old_loop_par1_eq_seq gs df end_node threads fuel [(start, .root 0 0)] []
    (by simp)

end OldAStar
